import Mathlib

/-!
Verification of the listing normalization & aggregation core of the
multi-agent real-estate helper (src/agents/analysis_agent.py and
src/agents/grouping_agent.py), over a shallow embedding.

Modelling conventions:
* Python `str` values are Lean `String`s; the string-manipulation helpers
  below operate on the underlying `List Char`.
* Listing records are the dictionaries produced by the scraper
  (src/agents/unegui_agent.py): every key is present and each value is
  either a text string or Python `None`, modelled as `Option String`.
* Python `float` arithmetic is modelled by exact rationals `ℚ`; the
  built-in `float(str)` conversion is modelled by `pyFloat`, which returns
  `none` exactly where `float` raises `ValueError` (sign / digits /
  optional single decimal point; exponent, `inf`/`nan` and underscore
  literal forms do not occur in this data and are not modelled).
* A caught Python exception (`try ... except: return None`) is modelled by
  an `Option` result; an uncaught exception is modelled by `Except PyErr`.
-/

/-- Python exceptions that the grouping code can raise and not catch. -/
inductive PyErr
  | typeError
  deriving DecidableEq, Repr

/-- ASCII digit test, the character class matched by `\d` in the regexes of
the source (the data never contains non-ASCII digits). -/
def isAsciiDigit (c : Char) : Bool :=
  decide (48 ≤ c.toNat ∧ c.toNat ≤ 57)

/-- `str.strip()`: drop whitespace from both ends. -/
def pyStrip (l : List Char) : List Char :=
  ((l.dropWhile Char.isWhitespace).reverse.dropWhile Char.isWhitespace).reverse

/-- Does `needle` occur at the start of `hay`? -/
def hasPrefixL : List Char → List Char → Bool
  | [], _ => true
  | _ :: _, [] => false
  | a :: as, b :: bs => a = b && hasPrefixL as bs

/-- Python's substring test `needle in hay`. -/
def hasSubstr (needle : List Char) : List Char → Bool
  | [] => needle.isEmpty
  | c :: t => hasPrefixL needle (c :: t) || hasSubstr needle t

/-- Fuelled worker for `removeAll` (fuel bounds the scan length so the
definition is structurally recursive and kernel-reducible). -/
def removeAllGo (needle : List Char) : Nat → List Char → List Char
  | _, [] => []
  | 0, l => l
  | fuel + 1, c :: rest =>
    if hasPrefixL needle (c :: rest) then
      removeAllGo needle fuel (List.drop (needle.length - 1) rest)
    else
      c :: removeAllGo needle fuel rest

/-- Python `str.replace(needle, "")`: delete every non-overlapping
occurrence of `needle`, scanning left to right. -/
def removeAll (needle hay : List Char) : List Char :=
  removeAllGo needle hay.length hay

/-- `str.replace(',', '').replace(' ', '')`: delete all commas and spaces. -/
def removeCS (l : List Char) : List Char :=
  l.filter (fun c => !(c = ',' || c = ' '))

/-- Numeric value of a string of ASCII digits (base 10). -/
def natOfDigits (l : List Char) : Nat :=
  l.foldl (fun a c => 10 * a + (c.toNat - 48)) 0

/-- Split a leading `-`/`+` sign off a parsed numeral. -/
def splitSign (t : List Char) : ℚ × List Char :=
  match t with
  | [] => (1, [])
  | c :: r =>
    if c = '-' then (-1, r)
    else if c = '+' then (1, r)
    else (1, c :: r)

/-- Model of Python's `float(str)` conversion on the decimal literals this
program feeds it: surrounding whitespace, an optional sign, and digits with
at most one decimal point.  Returns `none` where `float` raises
`ValueError`. -/
def pyFloat (l : List Char) : Option ℚ :=
  let t := pyStrip l
  let su := splitSign t
  let ip := su.2.takeWhile (fun c => !(c = '.'))
  let rest := su.2.dropWhile (fun c => !(c = '.'))
  match rest with
  | [] =>
    if !ip.isEmpty && ip.all isAsciiDigit then
      some (su.1 * (natOfDigits ip : ℚ))
    else none
  | _ :: fp =>
    if (!ip.isEmpty || !fp.isEmpty) && ip.all isAsciiDigit && fp.all isAsciiDigit then
      some (su.1 * ((natOfDigits ip : ℚ) + (natOfDigits fp : ℚ) / 10 ^ fp.length))
    else none

/-- First maximal run of characters matching `[\d.]+`, as found by
`re.search(r"[\d.]+", s)`; `none` when the regex finds no match. -/
def firstRun (l : List Char) : Option (List Char) :=
  let rest := l.dropWhile (fun c => !(isAsciiDigit c || c = '.'))
  match rest with
  | [] => none
  | c :: t => some ((c :: t).takeWhile (fun c => isAsciiDigit c || c = '.'))

/-- Lower-case one character the way Python `str.lower()` does, covering the
alphabets this data uses: ASCII and the Cyrillic letters А-Я, Ё, Ө, Ү. -/
def lowerChar (c : Char) : Char :=
  let n := c.toNat
  if 65 ≤ n ∧ n ≤ 90 then Char.ofNat (n + 32)
  else if 0x410 ≤ n ∧ n ≤ 0x42F then Char.ofNat (n + 0x20)
  else if n = 0x401 then Char.ofNat 0x451
  else if n = 0x4E8 then Char.ofNat 0x4E9
  else if n = 0x4AE then Char.ofNat 0x4AF
  else c

/-- Python `str.lower()` (on the alphabets this data uses). -/
def pyLower (l : List Char) : List Char := l.map lowerChar

/-- Word character for the `\b` boundaries of `re.search(r"\b\d{4}\b", s)`:
ASCII alphanumerics, underscore, and Cyrillic letters. -/
def isWordChar (c : Char) : Bool :=
  c.isAlphanum || c = '_' || decide (0x400 ≤ c.toNat ∧ c.toNat ≤ 0x4FF)

/-- Scan for the first 4-digit run enclosed in word boundaries
(`re.search(r"\b\d{4}\b", s)`); `prev` is the character before the scan
position (`none` at the start of the string). -/
def fourDigitAt (prev : Option Char) : List Char → Option Nat
  | c1 :: c2 :: c3 :: c4 :: rest =>
    if isAsciiDigit c1 && isAsciiDigit c2 && isAsciiDigit c3 && isAsciiDigit c4
        && (match prev with | none => true | some p => !isWordChar p)
        && (match rest with | [] => true | r :: _ => !(isWordChar r)) then
      some (natOfDigits [c1, c2, c3, c4])
    else
      fourDigitAt (some c1) (c2 :: c3 :: c4 :: rest)
  | _ => none

/-- Join character groups with a separator (used to build the synthetic
thousands-grouped price strings of the round-trip property). -/
def intercalateChar (s : Char) : List (List Char) → List Char
  | [] => []
  | [g] => g
  | g :: g2 :: gs => g ++ s :: intercalateChar s (g2 :: gs)

/-- Python `str.title()` restricted to the ASCII category names it is
applied to (`"by_district".replace('_',' ').title()` and the like). -/
def pyTitleGo : Bool → List Char → List Char
  | _, [] => []
  | prevAlpha, c :: t =>
    (if c.isAlpha then (if prevAlpha then c.toLower else c.toUpper) else c)
      :: pyTitleGo c.isAlpha t

/-- `category_name.replace('_', ' ').title()`. -/
def pyTitleUnderscore (s : String) : String :=
  ⟨pyTitleGo false (s.data.map (fun c => if c = '_' then ' ' else c))⟩

/-- Python `str.isdigit()` on the ASCII data of this program. -/
def pyIsDigitL (l : List Char) : Bool :=
  !l.isEmpty && l.all isAsciiDigit

/-- `str.split('.')[0]`: the part before the first dot. -/
def headDot (l : List Char) : List Char :=
  l.takeWhile (fun c => !(c = '.'))

/-- A scraped listing record (src/agents/unegui_agent.py): every key is
present; a value is `none` exactly when the scraper stored Python `None`. -/
structure Listing where
  title : Option String := none
  price : Option String := none
  place : Option String := none
  date : Option String := none
  area : Option String := none
  balcony : Option String := none
  total_floor : Option String := none
  details : Option String := none
  year : Option String := none
  floor : Option String := none
  window_count : Option String := none
  url : Option String := none
  deriving DecidableEq, Repr

/-- Python truthiness of an `Optional[str]` value. -/
def truthyOpt : Option String → Bool
  | none => false
  | some s => !s.data.isEmpty

/-- The characters of the scale word meaning "million". -/
def sayaChars : List Char := ['с', 'а', 'я']

/-- The characters of the scale word meaning "billion". -/
def terbumChars : List Char := ['т', 'э', 'р', 'б', 'у', 'м']

/-- Body of `AnalysisAgent._extract_numeric_price` on the character data of
a present price string (the `if not price_str` guard also sends the empty
string to `None`). -/
def extract_price_chars (cs : List Char) : Option ℚ :=
  if cs.isEmpty then none
  else
    let clean := pyStrip (cs.filter (fun c => !(c = '₮')))
    if hasSubstr sayaChars clean then
      (pyFloat (removeCS (pyStrip (removeAll sayaChars clean)))).map (· * 1000000)
    else if hasSubstr terbumChars clean then
      (pyFloat (removeCS (pyStrip (removeAll terbumChars clean)))).map (· * 1000000000)
    else
      pyFloat (removeCS clean)

/-- `AnalysisAgent._extract_numeric_price` (analysis_agent.py, lines 72-108):
strip the currency glyph and whitespace; if a scale word is present, remove
it, strip separators and multiply the parsed remainder by the scale
constant, else parse the separator-stripped remainder directly; `none` on
any `ValueError` (and for `None` or empty input). -/
def extract_numeric_price (o : Option String) : Option ℚ :=
  match o with
  | none => none
  | some s => extract_price_chars s.data

/-- The string `_extract_numeric_price` hands to `float` in whichever branch
it takes (used to state that the parse fails exactly where `float` would
raise `ValueError`). -/
def cleanedValue (s : String) : List Char :=
  let clean := pyStrip (s.data.filter (fun c => !(c = '₮')))
  if hasSubstr sayaChars clean then removeCS (pyStrip (removeAll sayaChars clean))
  else if hasSubstr terbumChars clean then removeCS (pyStrip (removeAll terbumChars clean))
  else removeCS clean

/-- The five candidate feature fields of
`AnalysisAgent._calculate_common_features`. -/
inductive Feature
  | balcony
  | total_floor
  | year
  | window_count
  | floor
  deriving DecidableEq, Repr

/-- `listing.get(feature)` for a candidate feature field. -/
def fieldOf : Feature → Listing → Option String
  | .balcony, l => l.balcony
  | .total_floor, l => l.total_floor
  | .year, l => l.year
  | .window_count, l => l.window_count
  | .floor, l => l.floor

/-- The keys of the `feature_counts` dict, in its literal order. -/
def allFeatures : List Feature :=
  [.balcony, .total_floor, .year, .window_count, .floor]

/-- The `feature_display_names` suffix of a feature. -/
def display : Feature → String
  | .balcony => "тагттай"
  | .total_floor => "нийт давхар"
  | .year => "онд ашиглалтанд орсон"
  | .window_count => "цонхтой"
  | .floor => "давхарт байрладаг"

/-- The value a listing contributes to a feature's tally: the field must be
truthy, the year field is cut at its first dot, and the result must pass
`str.isdigit()`; otherwise nothing is counted. -/
def processedVal (f : Feature) (l : Listing) : Option String :=
  match fieldOf f l with
  | none => none
  | some s =>
    if s.data.isEmpty then none
    else
      let v : String := if f = Feature.year then ⟨headDot s.data⟩ else s
      if pyIsDigitL v.data then some v else none

/-- Increment a value's count in an insertion-ordered tally
(`if value not in d: d[value] = 0; d[value] += 1`). -/
def bump (a : List (String × Nat)) (v : String) : List (String × Nat) :=
  match a with
  | [] => [(v, 1)]
  | (k, c) :: r => if k = v then (k, c + 1) :: r else (k, c) :: bump r v

/-- The tally one feature's inner dict holds after the counting loop. -/
def tallyOf (f : Feature) (ls : List Listing) : List (String × Nat) :=
  ls.foldl (fun acc l =>
    match processedVal f l with
    | some v => bump acc v
    | none => acc) []

/-- Count lookup in a tally (0 for an absent key). -/
def lookup0 : List (String × Nat) → String → Nat
  | [], _ => 0
  | (k, c) :: r, v => if k = v then c else lookup0 r v

/-- How often the value `v` is counted for feature `f` across `ls`. -/
def countFeat (f : Feature) (v : String) (ls : List Listing) : Nat :=
  ls.countP (fun l => decide (processedVal f l = some v))

/-- The f-string `f"{value} {feature_display_names[feature]}"`. -/
def render (f : Feature) (v : String) : String :=
  ⟨v.data ++ ' ' :: (display f).data⟩

/-- `AnalysisAgent._calculate_common_features` (lines 110-171): tally the
numeric values of the five candidate fields and report, per field in
declared order and per value in first-seen order, every value whose count
reaches `len(listings) * 0.4`. -/
def calculate_common_features (ls : List Listing) : List String :=
  if ls.isEmpty then []
  else
    (allFeatures.map (fun f =>
      (tallyOf f ls).filterMap (fun vc =>
        if (ls.length : ℚ) * 0.4 ≤ (vc.2 : ℚ) then some (render f vc.1) else none))).join

/-- `sum(prices)` over the parsed price list. -/
def listSum (l : List ℚ) : ℚ := l.foldl (· + ·) 0

/-- `min(prices)` of a non-empty list (callers guard emptiness). -/
def listMin : List ℚ → ℚ
  | [] => 0
  | x :: xs => xs.foldl min x

/-- `max(prices)` of a non-empty list (callers guard emptiness). -/
def listMax : List ℚ → ℚ
  | [] => 0
  | x :: xs => xs.foldl max x

/-- The dictionary `analyze_group` / `analyze_overall_category` return.  The
`summary` and `improvement_suggestions` entries are produced from the
response of the external `generate_content` LLM call (an outward effect the
core does not control); they enter the result only through that response,
so the embedding takes their final values as the parameter `llm` below. -/
structure Analysis where
  group_name : String
  count : Nat
  average_price : ℚ
  price_range : ℚ × ℚ
  common_features : List String
  summary : String
  improvement_suggestions : List String
  deriving DecidableEq, Repr

/-- `AnalysisAgent.analyze_group` (lines 173-249), deterministic part: count
all records, parse prices of truthy price fields, keep the positive parsed
values, and report average/min/max (0 for an empty price list) together
with the common features.  `llm` carries the LLM-derived fields. -/
def analyze_group (llm : String × List String) (group_name : String)
    (ls : List Listing) : Analysis :=
  let prices1 := (ls.filter (fun l => truthyOpt l.price)).map
    (fun l => extract_numeric_price l.price)
  let prices := prices1.filterMap (fun p =>
    match p with
    | some v => if 0 < v then some v else none
    | none => none)
  { group_name := group_name
    count := ls.length
    average_price := if prices.isEmpty then 0 else listSum prices / (prices.length : ℚ)
    price_range :=
      (if prices.isEmpty then 0 else listMin prices,
       if prices.isEmpty then 0 else listMax prices)
    common_features := calculate_common_features ls
    summary := llm.1
    improvement_suggestions := llm.2 }

/-- Concatenation of all buckets of one dimension, in bucket-iteration order
then within-bucket order (the `extend` loop of `analyze_overall_category`). -/
def flattenBuckets (sg : List (String × List Listing)) : List Listing :=
  (sg.map Prod.snd).join

/-- `AnalysisAgent.analyze_overall_category` (lines 251-327), deterministic
part: flatten the sub-groups and run the same statistics as
`analyze_group` over the flattened list (the source duplicates the
computation). -/
def analyze_overall_category (llm : String × List String) (category_name : String)
    (sg : List (String × List Listing)) : Analysis :=
  let all := flattenBuckets sg
  let prices1 := (all.filter (fun l => truthyOpt l.price)).map
    (fun l => extract_numeric_price l.price)
  let prices := prices1.filterMap (fun p =>
    match p with
    | some v => if 0 < v then some v else none
    | none => none)
  { group_name := pyTitleUnderscore category_name
    count := all.length
    average_price := if prices.isEmpty then 0 else listSum prices / (prices.length : ℚ)
    price_range :=
      (if prices.isEmpty then 0 else listMin prices,
       if prices.isEmpty then 0 else listMax prices)
    common_features := calculate_common_features all
    summary := llm.1
    improvement_suggestions := llm.2 }

/-- The spec-level valid-price list: parse every record's price and keep the
values that are neither `None` nor non-positive. -/
def specValidPrices (ls : List Listing) : List ℚ :=
  (ls.filterMap (fun l => extract_numeric_price l.price)).filter
    (fun p => decide (0 < p))

/-- The fixed closed set of district names of
`GroupingAgent._extract_district`. -/
def districtsList : List String :=
  ["Баянзүрх", "Хан-Уул", "Баянгол", "Сүхбаатар", "Чингэлтэй",
   "Налайх", "Багануур", "Багахангай"]

/-- `GroupingAgent._extract_district` (grouping_agent.py, lines 50-56): the
first listed district occurring as a substring of the place field.  The
function has no exception handler, so a `None` place (`district in None`)
raises `TypeError`. -/
def extract_district (place : Option String) : Except PyErr (Option String) :=
  match place with
  | none => Except.error PyErr.typeError
  | some p => Except.ok (districtsList.find? (fun d => hasSubstr d.data p.data))

/-- The four price bands of `GroupingAgent._get_price_range`. -/
def bandOf (p : ℚ) : String :=
  if p < 100000000 then "100 Саяас бага үнэтэй"
  else if p < 300000000 then "100 саяас - 300 сая"
  else if p < 500000000 then "300 саяас - 500 сая"
  else "500 саяас их"

/-- `GroupingAgent._get_price_range` (lines 58-74): if the string contains
"сая", the first `[\d.]+` run times 1,000,000, otherwise the concatenation
of all digits; banded, with every exception (including `TypeError` on a
`None` price) caught by the bare `except` and turned into `None`. -/
def get_price_range (o : Option String) : Option String :=
  match o with
  | none => none
  | some s =>
    if hasSubstr sayaChars s.data then
      match firstRun s.data with
      | none => none
      | some run =>
        match pyFloat run with
        | none => none
        | some v => some (bandOf (v * 1000000))
    else
      match pyFloat (s.data.filter isAsciiDigit) with
      | none => none
      | some v => some (bandOf v)

/-- The numeric parse `_get_price_range` actually performs, separated from
the banding so the two stages can be compared with the summarizer's parse. -/
def grouperParsePrice (o : Option String) : Option ℚ :=
  match o with
  | none => none
  | some s =>
    if hasSubstr sayaChars s.data then
      ((firstRun s.data).bind pyFloat).map (· * 1000000)
    else
      pyFloat (s.data.filter isAsciiDigit)

/-- `GroupingAgent._extract_room_count` (lines 76-88): lower-case the text
and test the fixed tokens `"N өрөө"` / `"N-р өрөө"` for N = 1..4 in order,
then the literal `"5 өрөө"` / `"5-р өрөө"` pair for the catch-all. -/
def extract_room_count (text : String) : Option String :=
  let t := pyLower text.data
  if hasSubstr ("1 өрөө").data t || hasSubstr ("1-р өрөө").data t then some "1 room"
  else if hasSubstr ("2 өрөө").data t || hasSubstr ("2-р өрөө").data t then some "2 rooms"
  else if hasSubstr ("3 өрөө").data t || hasSubstr ("3-р өрөө").data t then some "3 rooms"
  else if hasSubstr ("4 өрөө").data t || hasSubstr ("4-р өрөө").data t then some "4 rooms"
  else if hasSubstr ("5 өрөө").data t || hasSubstr ("5-р өрөө").data t then some "5+ rooms"
  else none

/-- The token table of the room-count rule: digit character, room token
pair, bucket label, for N = 1..4. -/
def roomTable : List (String × String × String) :=
  [("1 өрөө", "1-р өрөө", "1 room"),
   ("2 өрөө", "2-р өрөө", "2 rooms"),
   ("3 өрөө", "3-р өрөө", "3 rooms"),
   ("4 өрөө", "4-р өрөө", "4 rooms")]

/-- The room-count rule as the claim states it: lowest matching N in
{1,2,3,4} wins, else a catch-all that fires when ANY digit 5..9 is followed
by the room token, else excluded. -/
def claimRoomCount (text : String) : Option String :=
  let t := pyLower text.data
  match roomTable.find? (fun e => hasSubstr e.1.data t || hasSubstr e.2.1.data t) with
  | some e => some e.2.2
  | none =>
    if (['5', '6', '7', '8', '9'].any (fun d =>
        hasSubstr (d :: (" өрөө").data) t || hasSubstr (d :: ("-р өрөө").data) t)) then
      some "5+ rooms"
    else none

/-- The room-count rule as the code implements it, restated: lowest matching
N in {1,2,3,4} wins, else the catch-all fires exactly on the literal
tokens `"5 өрөө"` / `"5-р өрөө"`, else excluded. -/
def amendedRoomCount (text : String) : Option String :=
  let t := pyLower text.data
  match roomTable.find? (fun e => hasSubstr e.1.data t || hasSubstr e.2.1.data t) with
  | some e => some e.2.2
  | none =>
    if hasSubstr ("5 өрөө").data t || hasSubstr ("5-р өрөө").data t then some "5+ rooms"
    else none

/-- `GroupingAgent._get_area_range` (lines 90-102): first `[\d.]+` run,
banded; every exception caught. -/
def get_area_range (o : Option String) : Option String :=
  match o with
  | none => none
  | some s =>
    match firstRun s.data with
    | none => none
    | some run =>
      match pyFloat run with
      | none => none
      | some a =>
        some (if a < 40 then "Under 40 sqm"
          else if a < 60 then "40-60 sqm"
          else if a < 80 then "60-80 sqm"
          else "Over 80 sqm")

/-- `GroupingAgent._get_year_range` (lines 104-118): first `\b\d{4}\b` run,
banded; no match falls through to `None`; every exception caught. -/
def get_year_range (o : Option String) : Option String :=
  match o with
  | none => none
  | some s =>
    match fourDigitAt none s.data with
    | none => none
    | some y =>
      some (if y < 2000 then "Pre-2000"
        else if y < 2010 then "2000-2010"
        else if y < 2020 then "2010-2020"
        else "Post-2020")

/-- The five insertion-ordered bucket dicts `group_properties` builds. -/
structure Groups where
  byDistrict : List (String × List Listing)
  byPriceRange : List (String × List Listing)
  byRoomCount : List (String × List Listing)
  byAreaRange : List (String × List Listing)
  byYearBuilt : List (String × List Listing)
  deriving DecidableEq, Repr

/-- `if key not in groups[dim]: groups[dim][key] = []` followed by
`groups[dim][key].append(listing)`. -/
def dictAdd (d : List (String × List Listing)) (k : String) (l : Listing) :
    List (String × List Listing) :=
  match d with
  | [] => [(k, [l])]
  | (k2, v) :: rest =>
    if k2 = k then (k2, v ++ [l]) :: rest else (k2, v) :: dictAdd rest k l

/-- Append a listing under an optional bucket key (`if key:` guard). -/
def addOpt (d : List (String × List Listing)) (ko : Option String) (l : Listing) :
    List (String × List Listing) :=
  match ko with
  | some k => dictAdd d k l
  | none => d

/-- The empty `groups` dict literal. -/
def initGroups : Groups := ⟨[], [], [], [], []⟩

/-- The concatenation `listing.get("title", "") + " " + listing.get("details", "")`,
which raises `TypeError` when either stored value is `None`. -/
def roomText (l : Listing) : Except PyErr String :=
  match l.title, l.details with
  | some t, some d => Except.ok (t ++ " " ++ d)
  | _, _ => Except.error PyErr.typeError

/-- One iteration of the `group_properties` loop body, in source order:
district, price range, room count, area range, year range. -/
def groupStep (g : Groups) (l : Listing) : Except PyErr Groups := do
  let dis ← extract_district l.place
  let g1 := { g with byDistrict := addOpt g.byDistrict dis l }
  let g2 := { g1 with byPriceRange := addOpt g1.byPriceRange (get_price_range l.price) l }
  let txt ← roomText l
  let g3 := { g2 with byRoomCount := addOpt g2.byRoomCount (extract_room_count txt) l }
  let g4 := { g3 with byAreaRange := addOpt g3.byAreaRange (get_area_range l.area) l }
  pure { g4 with byYearBuilt := addOpt g4.byYearBuilt (get_year_range l.year) l }

/-- `GroupingAgent.group_properties` (lines 5-48). -/
def group_properties (ls : List Listing) : Except PyErr Groups :=
  ls.foldlM groupStep initGroups

/-- Thousands-separator choice of a synthetic price string. -/
inductive SepKind
  | comma
  | space
  deriving DecidableEq, Repr

/-- The separator character. -/
def sepChar : SepKind → Char
  | .comma => ','
  | .space => ' '

/-- Scale-word choice of a synthetic price string. -/
inductive Scale
  | unscaled
  | saya
  | terbum
  deriving DecidableEq, Repr

/-- The characters a scale word adds to a synthetic price string. -/
def scaleSuffix : Scale → List Char
  | .unscaled => []
  | .saya => ' ' :: sayaChars
  | .terbum => ' ' :: terbumChars

/-- The multiplier the parser must apply for a scale word. -/
def scaleConst : Scale → ℚ
  | .unscaled => 1
  | .saya => 1000000
  | .terbum => 1000000000

/-- The numeral part of a synthetic price string: digit groups joined by the
separator, then an optional fractional part. -/
def numeralChars (gs : List (List Char)) (fs : List Char) (sep : SepKind) : List Char :=
  intercalateChar (sepChar sep) gs ++ (if fs.isEmpty then [] else '.' :: fs)

/-- A synthetic price string: grouped numeral, optional scale word, optional
currency glyph. -/
def mkPriceString (gs : List (List Char)) (fs : List Char) (sep : SepKind)
    (glyph : Bool) (sc : Scale) : String :=
  ⟨numeralChars gs fs sep ++ scaleSuffix sc ++ (if glyph then ['₮'] else [])⟩

/-- The numeric value a synthetic numeral denotes: integer digits plus
fraction digits over the matching power of ten. -/
def ratOfParts (ds fs : List Char) : ℚ :=
  (natOfDigits ds : ℚ) + (natOfDigits fs : ℚ) / 10 ^ fs.length

/-- The record with every field `None`, exactly as the scraper initialises
`ad_data` before any tag is found. -/
def blankListing : Listing := {}

/-- A record whose place parses but whose title is `None`. -/
def hanUulListing : Listing := { place := some "Хан-Уул, 1-р хороо" }

/-- The three-record price example: two parseable prices and one
unparseable one. -/
def priceExample : List Listing :=
  [{ price := some "100 сая ₮" }, { price := some "200 сая ₮" }, { price := some "bad" }]

/-- Records with no valid price at all (one missing, one unparseable). -/
def noPriceExample : List Listing :=
  [{ price := none }, { price := some "junk" }]

/-- A record contributing balcony value "2". -/
def balcony2 : Listing := { balcony := some "2" }

/-- Five records of which exactly two carry balcony value "2": the 40 %
threshold boundary. -/
def fortyExample : List Listing :=
  [balcony2, balcony2, {}, {}, {}]

/-- Five records of which exactly one carries balcony value "2" (20 %,
under the threshold). -/
def twentyExample : List Listing :=
  [balcony2, {}, {}, {}, {}]

/-- A record whose balcony field holds the string "0". -/
def zeroBalcony : Listing := { balcony := some "0" }

/-- A record whose balcony field holds a negative value string. -/
def negBalcony : Listing := { balcony := some "-5" }

/-- A record contributing balcony value "1". -/
def balcony1 : Listing := { balcony := some "1" }

/-- Ten records split 6/4 across two district buckets; exactly four carry
balcony value "1" (the 40 %-of-10 boundary) and three carry floor value
"3" (30 %, under it). -/
def districtBuckets : List (String × List Listing) :=
  [("Баянзүрх", [balcony1, balcony1, balcony1, { floor := some "3" },
                 { floor := some "3" }, { floor := some "3" }]),
   ("Хан-Уул", [balcony1, {}, {}, {}])]

/-- The price list `analyze_group` builds internally: parse the truthy price
fields, then keep the non-`None` positive values. -/
def internalPrices (ls : List Listing) : List ℚ :=
  ((ls.filter (fun l => truthyOpt l.price)).map
    (fun l => extract_numeric_price l.price)).filterMap (fun p =>
      match p with
      | some v => if 0 < v then some v else none
      | none => none)

theorem ne_of_digit {c d : Char} (hc : isAsciiDigit c = true)
    (hd : isAsciiDigit d = false) : c ≠ d := by
  intro h
  subst h
  rw [hc] at hd
  exact Bool.noConfusion hd

theorem digit_not_ws {c : Char} (hc : isAsciiDigit c = true) :
    c.isWhitespace = false := by
  simp only [Char.isWhitespace]
  have h1 := ne_of_digit hc (d := ' ') (by decide)
  have h2 := ne_of_digit hc (d := '\t') (by decide)
  have h3 := ne_of_digit hc (d := '\r') (by decide)
  have h4 := ne_of_digit hc (d := '\n') (by decide)
  simp [h1, h2, h3, h4]

theorem hasPrefixL_self_append (n zs : List Char) :
    hasPrefixL n (n ++ zs) = true := by
  induction n with
  | nil => rfl
  | cons c t ih => simp [hasPrefixL, ih]

theorem hasPrefixL_subset {n h : List Char} (hp : hasPrefixL n h = true) :
    ∀ c ∈ n, c ∈ h := by
  induction n generalizing h with
  | nil => intro c hc; cases hc
  | cons a as ih =>
    cases h with
    | nil => cases hp
    | cons b bs =>
      simp only [hasPrefixL, Bool.and_eq_true, decide_eq_true_eq] at hp
      intro c hc
      rcases List.mem_cons.mp hc with h1 | h1
      · exact List.mem_cons.mpr (Or.inl (h1.trans hp.1))
      · exact List.mem_cons.mpr (Or.inr (ih hp.2 c h1))

theorem hasSubstr_append (n xs ys : List Char) :
    hasSubstr n (xs ++ n ++ ys) = true := by
  induction xs with
  | nil =>
    simp only [List.nil_append]
    cases hny : n ++ ys with
    | nil =>
      rcases List.append_eq_nil.mp hny with ⟨h1, _⟩
      simp [hasSubstr, hny, h1]
    | cons c t =>
      rw [hasSubstr, ← hny, hasPrefixL_self_append]
      rfl
  | cons x xt ih =>
    have h : (x :: xt) ++ n ++ ys = x :: (xt ++ n ++ ys) := by simp
    rw [h, hasSubstr, ih, Bool.or_true]

theorem hasSubstr_subset {n h : List Char} (hs : hasSubstr n h = true) :
    ∀ c ∈ n, c ∈ h := by
  induction h with
  | nil =>
    cases n with
    | nil => intro c hc; cases hc
    | cons a as => cases hs
  | cons b bs ih =>
    rw [hasSubstr, Bool.or_eq_true] at hs
    rcases hs with hs | hs
    · exact hasPrefixL_subset hs
    · intro c hc
      exact List.mem_cons.mpr (Or.inr (ih hs c hc))

theorem hasSubstr_eq_false {n h : List Char} {c : Char} (hcn : c ∈ n)
    (hch : c ∉ h) : hasSubstr n h = false := by
  cases hs : hasSubstr n h with
  | false => rfl
  | true => exact absurd (hasSubstr_subset hs c hcn) hch

theorem dropWhile_eq_self_of_head {p : Char → Bool} {l : List Char}
    (h : ∀ c, l.head? = some c → p c = false) : l.dropWhile p = l := by
  cases l with
  | nil => rfl
  | cons c t => simp [List.dropWhile_cons, h c rfl]

theorem pyStrip_eq_self {l : List Char}
    (h1 : ∀ c, l.head? = some c → c.isWhitespace = false)
    (h2 : ∀ c, l.getLast? = some c → c.isWhitespace = false) :
    pyStrip l = l := by
  unfold pyStrip
  rw [dropWhile_eq_self_of_head h1]
  rw [dropWhile_eq_self_of_head (by
    intro c hc
    rw [List.head?_reverse] at hc
    exact h2 c hc)]
  exact List.reverse_reverse l

theorem head?_append_of_ne_nil {a : List Char} (b : List Char) (h : a ≠ []) :
    (a ++ b).head? = a.head? := by
  cases a with
  | nil => exact absurd rfl h
  | cons c t => rfl

theorem getLast?_append_of_ne_nil (a : List Char) {b : List Char} (h : b ≠ []) :
    (a ++ b).getLast? = b.getLast? := by
  rw [← List.head?_reverse, ← List.head?_reverse, List.reverse_append]
  exact head?_append_of_ne_nil a.reverse (by simpa using h)

theorem getLast?_mem {l : List Char} (h : l ≠ []) :
    ∃ c, l.getLast? = some c ∧ c ∈ l := by
  induction l with
  | nil => exact absurd rfl h
  | cons a as ih =>
    cases as with
    | nil => exact ⟨a, rfl, List.mem_singleton.mpr rfl⟩
    | cons b bs =>
      obtain ⟨c, hc1, hc2⟩ := ih (by simp)
      exact ⟨c, by rw [List.getLast?_cons_cons]; exact hc1,
        List.mem_cons.mpr (Or.inr hc2)⟩

theorem pyStrip_append_space {l : List Char} (hne : l ≠ [])
    (h1 : ∀ c, l.head? = some c → c.isWhitespace = false)
    (h2 : ∀ c, l.getLast? = some c → c.isWhitespace = false) :
    pyStrip (l ++ [' ']) = l := by
  unfold pyStrip
  rw [dropWhile_eq_self_of_head (l := l ++ [' ']) (by
    intro c hc
    rw [head?_append_of_ne_nil _ hne] at hc
    exact h1 c hc)]
  rw [List.reverse_append]
  simp only [List.reverse_cons, List.reverse_nil, List.nil_append,
    List.singleton_append, List.dropWhile_cons]
  have : (' ' : Char).isWhitespace = true := by decide
  rw [this]
  simp only [if_pos rfl]
  rw [dropWhile_eq_self_of_head (by
    intro c hc
    rw [List.head?_reverse] at hc
    exact h2 c hc)]
  exact List.reverse_reverse l

theorem filter_eq_self_of_all {p : Char → Bool} {l : List Char}
    (h : ∀ c ∈ l, p c = true) : l.filter p = l :=
  List.filter_eq_self.mpr h

theorem removeAllGo_append {hch : Char} {t xs : List Char} :
    ∀ fuel, xs.length + (hch :: t).length ≤ fuel → hch ∉ xs →
      removeAllGo (hch :: t) fuel (xs ++ hch :: t) = xs := by
  induction xs with
  | nil =>
    intro fuel hf _
    simp only [List.length_nil, List.nil_append, Nat.zero_add] at hf ⊢
    cases fuel with
    | zero => simp at hf
    | succ f =>
      rw [removeAllGo, if_pos (show hasPrefixL (hch :: t) (hch :: t) = true from by
        have h := hasPrefixL_self_append (hch :: t) []
        rwa [List.append_nil] at h)]
      have hd : List.drop ((hch :: t).length - 1) t = [] := by
        simp [List.drop_length]
      rw [hd]
      cases f <;> rfl
  | cons x xt ih =>
    intro fuel hf hmem
    cases fuel with
    | zero => simp at hf
    | succ f =>
      have hx : hch ≠ x := fun h => hmem (h ▸ List.mem_cons_self x xt)
      have hpf : hasPrefixL (hch :: t) ((x :: xt) ++ hch :: t) = false := by
        simp only [List.cons_append, hasPrefixL, Bool.and_eq_false_iff]
        left
        simp [hx]
      rw [List.cons_append, removeAllGo]
      rw [List.cons_append] at hpf
      rw [if_neg (by simp [hpf])]
      have := ih f (by simp only [List.length_cons] at hf ⊢; omega)
        (fun h => hmem (List.mem_cons.mpr (Or.inr h)))
      rw [this]

theorem removeAll_append {hch : Char} {t xs : List Char} (hmem : hch ∉ xs) :
    removeAll (hch :: t) (xs ++ hch :: t) = xs := by
  unfold removeAll
  exact removeAllGo_append (xs ++ hch :: t).length (by simp) hmem

theorem natOfDigits_nonneg (l : List Char) : (0 : ℚ) ≤ (natOfDigits l : ℚ) := by
  exact_mod_cast Nat.zero_le _

theorem splitSign_of_digit {l : List Char} (hne : l ≠ [])
    (hd : ∀ c ∈ l, isAsciiDigit c = true) : splitSign l = (1, l) := by
  cases l with
  | nil => exact absurd rfl hne
  | cons c t =>
    have hc := hd c (List.mem_cons_self c t)
    rw [splitSign]
    rw [if_neg (ne_of_digit hc (by decide))]
    rw [if_neg (ne_of_digit hc (by decide))]

theorem takeWhile_all {p : Char → Bool} {l : List Char}
    (h : ∀ c ∈ l, p c = true) : l.takeWhile p = l := by
  induction l with
  | nil => rfl
  | cons c t ih =>
    simp [List.takeWhile_cons, h c (List.mem_cons_self c t),
      ih (fun d hd => h d (List.mem_cons.mpr (Or.inr hd)))]

theorem dropWhile_all {p : Char → Bool} {l : List Char}
    (h : ∀ c ∈ l, p c = true) : l.dropWhile p = [] := by
  induction l with
  | nil => rfl
  | cons c t ih =>
    rw [List.dropWhile_cons, h c (List.mem_cons_self c t)]
    exact ih (fun d hd => h d (List.mem_cons.mpr (Or.inr hd)))

theorem takeWhile_append_stop {p : Char → Bool} {l r : List Char} {c : Char}
    (h : ∀ d ∈ l, p d = true) (hc : p c = false) :
    (l ++ c :: r).takeWhile p = l := by
  induction l with
  | nil => simp [List.takeWhile_cons, hc]
  | cons a as ih =>
    simp [List.cons_append, List.takeWhile_cons, h a (List.mem_cons_self a as),
      ih (fun d hd => h d (List.mem_cons.mpr (Or.inr hd)))]

theorem dropWhile_append_stop {p : Char → Bool} {l r : List Char} {c : Char}
    (h : ∀ d ∈ l, p d = true) (hc : p c = false) :
    (l ++ c :: r).dropWhile p = c :: r := by
  induction l with
  | nil => simp [List.dropWhile_cons, hc]
  | cons a as ih =>
    rw [List.cons_append, List.dropWhile_cons, h a (List.mem_cons_self a as)]
    exact ih (fun d hd => h d (List.mem_cons.mpr (Or.inr hd)))

theorem pyStrip_of_digits {l : List Char} (hd : ∀ c ∈ l, isAsciiDigit c = true) :
    pyStrip l = l :=
  pyStrip_eq_self
    (fun c hc => digit_not_ws (hd c (List.mem_of_mem_head? hc)))
    (fun c hc => digit_not_ws (hd c (List.mem_of_mem_getLast? hc)))

theorem pyFloat_digits {l : List Char} (hne : l ≠ [])
    (hd : ∀ c ∈ l, isAsciiDigit c = true) :
    pyFloat l = some ((natOfDigits l : ℚ)) := by
  have hnd : ∀ c ∈ l, (fun c => !decide (c = '.')) c = true := by
    intro c hc
    simp [ne_of_digit (hd c hc) (show isAsciiDigit '.' = false from by decide)]
  simp only [pyFloat, pyStrip_of_digits hd, splitSign_of_digit hne hd]
  rw [takeWhile_all hnd, dropWhile_all hnd]
  simp [List.isEmpty_iff, hne, List.all_eq_true.mpr hd]

theorem pyFloat_digits_frac {l f : List Char} (hne : l ≠ [])
    (hd : ∀ c ∈ l, isAsciiDigit c = true)
    (hf : ∀ c ∈ f, isAsciiDigit c = true) :
    pyFloat (l ++ '.' :: f) = some (ratOfParts l f) := by
  have hall : ∀ c ∈ l ++ '.' :: f, c.isWhitespace = false := by
    intro c hc
    rcases List.mem_append.mp hc with h | h
    · exact digit_not_ws (hd c h)
    · rcases List.mem_cons.mp h with h | h
      · subst h; decide
      · exact digit_not_ws (hf c h)
  have hstr : pyStrip (l ++ '.' :: f) = l ++ '.' :: f :=
    pyStrip_eq_self
      (fun c hc => hall c (List.mem_of_mem_head? hc))
      (fun c hc => hall c (List.mem_of_mem_getLast? hc))
  have hsgn : splitSign (l ++ '.' :: f) = (1, l ++ '.' :: f) := by
    cases l with
    | nil => exact absurd rfl hne
    | cons a t =>
      have hc := hd a (List.mem_cons_self a t)
      rw [List.cons_append, splitSign]
      rw [if_neg (ne_of_digit hc (by decide))]
      rw [if_neg (ne_of_digit hc (by decide))]
  have hnd : ∀ c ∈ l, (fun c => !decide (c = '.')) c = true := by
    intro c hc
    simp [ne_of_digit (hd c hc) (show isAsciiDigit '.' = false from by decide)]
  simp only [pyFloat, hstr, hsgn]
  rw [takeWhile_append_stop hnd (by simp), dropWhile_append_stop hnd (by simp)]
  simp [List.isEmpty_iff, hne, List.all_eq_true.mpr hd, List.all_eq_true.mpr hf,
    ratOfParts]

theorem mem_intercalateChar {s : Char} {c : Char} :
    ∀ {gs : List (List Char)}, c ∈ intercalateChar s gs →
      c = s ∨ ∃ g ∈ gs, c ∈ g := by
  intro gs
  induction gs with
  | nil => intro h; cases h
  | cons g rest ih =>
    cases rest with
    | nil =>
      intro h
      exact Or.inr ⟨g, List.mem_cons_self g [], h⟩
    | cons g2 gs2 =>
      intro h
      rw [intercalateChar] at h
      rcases List.mem_append.mp h with h | h
      · exact Or.inr ⟨g, List.mem_cons_self g _, h⟩
      · rcases List.mem_cons.mp h with h | h
        · exact Or.inl h
        · rcases ih h with h | ⟨g3, hg3, hcg3⟩
          · exact Or.inl h
          · exact Or.inr ⟨g3, List.mem_cons.mpr (Or.inr hg3), hcg3⟩

theorem head?_intercalateChar {s : Char} {g : List Char}
    (gs : List (List Char)) (h : g ≠ []) :
    (intercalateChar s (g :: gs)).head? = g.head? := by
  cases gs with
  | nil => rfl
  | cons g2 gs2 =>
    rw [intercalateChar]
    exact head?_append_of_ne_nil _ h

theorem getLast?_intercalateChar {s : Char} :
    ∀ {gs : List (List Char)}, gs ≠ [] → (∀ g ∈ gs, g ≠ []) →
      ∃ c g, g ∈ gs ∧ c ∈ g ∧ (intercalateChar s gs).getLast? = some c := by
  intro gs
  induction gs with
  | nil => intro h; exact absurd rfl h
  | cons g rest ih =>
    intro _ hne
    cases rest with
    | nil =>
      obtain ⟨c, hc1, hc2⟩ := getLast?_mem (hne g (List.mem_cons_self g []))
      exact ⟨c, g, List.mem_cons_self g [], hc2, hc1⟩
    | cons g2 gs2 =>
      obtain ⟨c, g3, hg3, hcg3, hlast⟩ := ih (by simp)
        (fun x hx => hne x (List.mem_cons.mpr (Or.inr hx)))
      refine ⟨c, g3, List.mem_cons.mpr (Or.inr hg3), hcg3, ?_⟩
      rw [intercalateChar]
      rw [getLast?_append_of_ne_nil _ (by simp)]
      have : s :: intercalateChar s (g2 :: gs2) = [s] ++ intercalateChar s (g2 :: gs2) := by
        simp
      rw [this, getLast?_append_of_ne_nil _ ?_, hlast]
      intro hnil
      rw [hnil] at hlast
      cases hlast

theorem intercalateChar_ne_nil {s : Char} {g : List Char}
    (gs : List (List Char)) (h : g ≠ []) :
    intercalateChar s (g :: gs) ≠ [] := by
  cases gs with
  | nil => exact h
  | cons g2 gs2 =>
    rw [intercalateChar]
    intro hc
    rcases List.append_eq_nil.mp hc with ⟨_, h2⟩
    cases h2

theorem mem_numeralChars {gs : List (List Char)} {fs : List Char}
    {sep : SepKind} {c : Char}
    (hg : ∀ g ∈ gs, ∀ d ∈ g, isAsciiDigit d = true)
    (hf : ∀ d ∈ fs, isAsciiDigit d = true)
    (hc : c ∈ numeralChars gs fs sep) :
    isAsciiDigit c = true ∨ c = sepChar sep ∨ c = '.' := by
  rw [numeralChars] at hc
  rcases List.mem_append.mp hc with h | h
  · rcases mem_intercalateChar h with h | ⟨g, hgm, hcg⟩
    · exact Or.inr (Or.inl h)
    · exact Or.inl (hg g hgm c hcg)
  · by_cases hfe : fs.isEmpty
    · rw [if_pos hfe] at h; cases h
    · rw [if_neg hfe] at h
      rcases List.mem_cons.mp h with h | h
      · exact Or.inr (Or.inr h)
      · exact Or.inl (hf c h)

theorem numeralChars_ne_nil {gs : List (List Char)} {fs : List Char}
    {sep : SepKind} {g : List Char} (hgs : gs = g :: gs.tail) (h : g ≠ []) :
    numeralChars gs fs sep ≠ [] := by
  rw [numeralChars, hgs]
  intro hc
  rcases List.append_eq_nil.mp hc with ⟨h1, _⟩
  exact intercalateChar_ne_nil gs.tail h h1

theorem head?_numeralChars {gs : List (List Char)} {fs : List Char}
    {sep : SepKind} {g : List Char} (hgs : gs = g :: gs.tail) (h : g ≠ []) :
    (numeralChars gs fs sep).head? = g.head? := by
  rw [numeralChars, hgs]
  rw [head?_append_of_ne_nil _ (intercalateChar_ne_nil gs.tail h)]
  exact head?_intercalateChar gs.tail h

theorem getLast?_numeralChars_digit {gs : List (List Char)} {fs : List Char}
    {sep : SepKind} (hne : gs ≠ []) (hg0 : ∀ g ∈ gs, g ≠ [])
    (hg : ∀ g ∈ gs, ∀ d ∈ g, isAsciiDigit d = true)
    (hf : ∀ d ∈ fs, isAsciiDigit d = true) :
    ∃ c, (numeralChars gs fs sep).getLast? = some c ∧ isAsciiDigit c = true := by
  rw [numeralChars]
  by_cases hfe : fs.isEmpty
  · rw [if_pos hfe, List.append_nil]
    obtain ⟨c, g, hgm, hcg, hlast⟩ := getLast?_intercalateChar hne hg0
    exact ⟨c, hlast, hg g hgm c hcg⟩
  · rw [if_neg hfe]
    have hfne : fs ≠ [] := by
      intro h; rw [h] at hfe; exact hfe rfl
    rw [getLast?_append_of_ne_nil _ (by simp)]
    have : '.' :: fs = ['.'] ++ fs := by simp
    rw [this, getLast?_append_of_ne_nil _ hfne]
    obtain ⟨c, hc1, hc2⟩ := getLast?_mem hfne
    exact ⟨c, hc1, hf c hc2⟩

theorem removeCS_of_no_cs {l : List Char}
    (h : ∀ c ∈ l, c ≠ ',' ∧ c ≠ ' ') : removeCS l = l := by
  apply filter_eq_self_of_all
  intro c hc
  simp [(h c hc).1, (h c hc).2]

theorem removeCS_append (a b : List Char) :
    removeCS (a ++ b) = removeCS a ++ removeCS b := by
  simp [removeCS, List.filter_append]

theorem removeCS_intercalate {gs : List (List Char)} {sep : SepKind}
    (hg : ∀ g ∈ gs, ∀ d ∈ g, isAsciiDigit d = true) :
    removeCS (intercalateChar (sepChar sep) gs) = gs.join := by
  induction gs with
  | nil => rfl
  | cons g rest ih =>
    have hgd : removeCS g = g := by
      apply removeCS_of_no_cs
      intro c hc
      have hcd := hg g (List.mem_cons_self g rest) c hc
      exact ⟨ne_of_digit hcd (show isAsciiDigit ',' = false from by decide),
        ne_of_digit hcd (show isAsciiDigit ' ' = false from by decide)⟩
    cases rest with
    | nil => simpa [intercalateChar, List.join] using hgd
    | cons g2 gs2 =>
      rw [intercalateChar, removeCS_append]
      have hsep : removeCS (sepChar sep :: intercalateChar (sepChar sep) (g2 :: gs2))
          = removeCS (intercalateChar (sepChar sep) (g2 :: gs2)) := by
        cases sep <;> simp [removeCS, List.filter_cons, sepChar]
      rw [hsep, hgd, ih (fun x hx => hg x (List.mem_cons.mpr (Or.inr hx)))]
      simp [List.join]

theorem notin_numeralChars {gs : List (List Char)} {fs : List Char}
    {sep : SepKind} {c : Char}
    (hg : ∀ g ∈ gs, ∀ d ∈ g, isAsciiDigit d = true)
    (hf : ∀ d ∈ fs, isAsciiDigit d = true)
    (h1 : isAsciiDigit c = false) (h2 : c ≠ sepChar sep) (h3 : c ≠ '.') :
    c ∉ numeralChars gs fs sep := by
  intro hmem
  rcases mem_numeralChars hg hf hmem with h | h | h
  · rw [h] at h1; cases h1
  · exact h2 h
  · exact h3 h

theorem join_ne_nil_of_head {g : List Char} (tail : List (List Char))
    (h : g ≠ []) : (g :: tail).join ≠ [] := by
  intro hc
  simp only [List.join_eq_nil_iff] at hc
  exact h (hc g (List.mem_cons_self g tail))

theorem digits_join {gs : List (List Char)}
    (hg : ∀ g ∈ gs, ∀ d ∈ g, isAsciiDigit d = true) :
    ∀ d ∈ gs.join, isAsciiDigit d = true := by
  intro d hd
  rw [List.mem_join] at hd
  obtain ⟨g, hg1, hg2⟩ := hd
  exact hg g hg1 d hg2

theorem removeCS_numeral {gs : List (List Char)} {fs : List Char} {sep : SepKind}
    (hg : ∀ g ∈ gs, ∀ d ∈ g, isAsciiDigit d = true)
    (hf : ∀ d ∈ fs, isAsciiDigit d = true) :
    removeCS (numeralChars gs fs sep) =
      gs.join ++ (if fs.isEmpty then [] else '.' :: fs) := by
  rw [numeralChars, removeCS_append, removeCS_intercalate hg]
  congr 1
  by_cases hfe : fs.isEmpty
  · rw [if_pos hfe]; rfl
  · rw [if_neg hfe]
    apply removeCS_of_no_cs
    intro c hc
    rcases List.mem_cons.mp hc with h | h
    · subst h; exact ⟨by decide, by decide⟩
    · have hcd := hf c h
      exact ⟨ne_of_digit hcd (show isAsciiDigit ',' = false from by decide),
        ne_of_digit hcd (show isAsciiDigit ' ' = false from by decide)⟩

theorem pyFloat_numFinal {j fs : List Char} (hj : j ≠ [])
    (hjd : ∀ d ∈ j, isAsciiDigit d = true)
    (hfd : ∀ d ∈ fs, isAsciiDigit d = true) :
    pyFloat (j ++ (if fs.isEmpty then [] else '.' :: fs)) =
      some (ratOfParts j fs) := by
  by_cases hfe : fs.isEmpty
  · rw [if_pos hfe, List.append_nil, pyFloat_digits hj hjd]
    have : fs = [] := by rwa [List.isEmpty_iff] at hfe
    subst this
    simp [ratOfParts, natOfDigits]
  · rw [if_neg hfe]
    exact pyFloat_digits_frac hj hjd hfd

theorem scaleSuffix_no_glyph (sc : Scale) :
    (scaleSuffix sc).filter (fun c => !(c = '₮')) = scaleSuffix sc := by
  cases sc <;> decide

theorem extract_price_chars_mk (gs : List (List Char)) (fs : List Char)
    (sep : SepKind) (gl : Bool) (sc : Scale)
    (hne : gs ≠ [])
    (hg0 : ∀ g ∈ gs, g ≠ [])
    (hg : ∀ g ∈ gs, ∀ d ∈ g, isAsciiDigit d = true)
    (hf : ∀ d ∈ fs, isAsciiDigit d = true) :
    extract_price_chars
        (numeralChars gs fs sep ++ scaleSuffix sc ++ (if gl then ['₮'] else [])) =
      some (ratOfParts gs.join fs * scaleConst sc) := by
  obtain ⟨g, tail, rfl⟩ : ∃ g tail, gs = g :: tail := by
    cases gs with
    | nil => exact absurd rfl hne
    | cons g tail => exact ⟨g, tail, rfl⟩
  have hgne : g ≠ [] := hg0 g (List.mem_cons_self g tail)
  have hNne : numeralChars (g :: tail) fs sep ≠ [] := numeralChars_ne_nil rfl hgne
  have hNhead : ∀ c, (numeralChars (g :: tail) fs sep).head? = some c →
      isAsciiDigit c = true := by
    intro c hc
    rw [head?_numeralChars rfl hgne] at hc
    exact hg g (List.mem_cons_self g tail) c (List.mem_of_mem_head? hc)
  have hNlast := @getLast?_numeralChars_digit (g :: tail) fs sep
    (by simp) hg0 hg hf
  have hNlastws : ∀ c, (numeralChars (g :: tail) fs sep).getLast? = some c →
      c.isWhitespace = false := by
    intro c hc
    obtain ⟨d, hd1, hd2⟩ := hNlast
    rw [hd1] at hc
    injection hc with h
    subst h
    exact digit_not_ws hd2
  have hNheadws : ∀ c, (numeralChars (g :: tail) fs sep).head? = some c →
      c.isWhitespace = false := fun c hc => digit_not_ws (hNhead c hc)
  have hnotinS : ('с' : Char) ∉ numeralChars (g :: tail) fs sep :=
    notin_numeralChars hg hf (by decide) (by cases sep <;> decide) (by decide)
  have hnotinT : ('т' : Char) ∉ numeralChars (g :: tail) fs sep :=
    notin_numeralChars hg hf (by decide) (by cases sep <;> decide) (by decide)
  have hnotinG : ('₮' : Char) ∉ numeralChars (g :: tail) fs sep :=
    notin_numeralChars hg hf (by decide) (by cases sep <;> decide) (by decide)
  have hfil : (numeralChars (g :: tail) fs sep ++ scaleSuffix sc
        ++ (if gl then ['₮'] else [])).filter (fun c => !(c = '₮'))
      = numeralChars (g :: tail) fs sep ++ scaleSuffix sc := by
    rw [List.filter_append, List.filter_append]
    have h1 : (numeralChars (g :: tail) fs sep).filter (fun c => !(c = '₮'))
        = numeralChars (g :: tail) fs sep := by
      apply filter_eq_self_of_all
      intro c hc
      simp only [Bool.not_eq_eq_eq_not, Bool.not_true, decide_eq_false_iff_not]
      intro h
      exact hnotinG (h ▸ hc)
    have h3 : ((if gl then ['₮'] else []) : List Char).filter (fun c => !(c = '₮'))
        = [] := by
      cases gl <;> decide
    rw [h1, scaleSuffix_no_glyph, h3, List.append_nil]
  have hemp : (numeralChars (g :: tail) fs sep ++ scaleSuffix sc
      ++ (if gl then ['₮'] else [])).isEmpty = false := by
    cases hN : numeralChars (g :: tail) fs sep with
    | nil => exact absurd hN hNne
    | cons a b => rfl
  have hstrip : pyStrip (numeralChars (g :: tail) fs sep ++ scaleSuffix sc)
      = numeralChars (g :: tail) fs sep ++ scaleSuffix sc := by
    refine pyStrip_eq_self ?_ ?_
    · intro c hc
      rw [head?_append_of_ne_nil _ hNne] at hc
      exact hNheadws c hc
    · intro c hc
      cases sc with
      | unscaled =>
        rw [show scaleSuffix Scale.unscaled = [] from rfl, List.append_nil] at hc
        exact hNlastws c hc
      | saya =>
        rw [getLast?_append_of_ne_nil _ (by decide)] at hc
        rw [show (scaleSuffix Scale.saya).getLast? = some 'я' from by decide] at hc
        injection hc with h
        subst h
        decide
      | terbum =>
        rw [getLast?_append_of_ne_nil _ (by decide)] at hc
        rw [show (scaleSuffix Scale.terbum).getLast? = some 'м' from by decide] at hc
        injection hc with h
        subst h
        decide
  simp only [extract_price_chars, hemp, Bool.false_eq_true, if_false, hfil, hstrip]
  cases sc with
  | unscaled =>
    simp only [show scaleSuffix Scale.unscaled = [] from rfl, List.append_nil]
    rw [hasSubstr_eq_false (show ('с' : Char) ∈ sayaChars from by decide) hnotinS]
    rw [hasSubstr_eq_false (show ('т' : Char) ∈ terbumChars from by decide) hnotinT]
    simp only [Bool.false_eq_true, if_false]
    rw [removeCS_numeral hg hf]
    rw [pyFloat_numFinal (join_ne_nil_of_head tail hgne) (digits_join hg) hf]
    simp [scaleConst]
  | saya =>
    have hsub : hasSubstr sayaChars
        (numeralChars (g :: tail) fs sep ++ scaleSuffix Scale.saya) = true := by
      have h := hasSubstr_append sayaChars
        (numeralChars (g :: tail) fs sep ++ [' ']) []
      simpa [scaleSuffix] using h
    rw [hsub]
    simp only [if_true]
    have hrm : removeAll sayaChars
        (numeralChars (g :: tail) fs sep ++ scaleSuffix Scale.saya)
        = numeralChars (g :: tail) fs sep ++ [' '] := by
      have hmem : ('с' : Char) ∉ numeralChars (g :: tail) fs sep ++ [' '] := by
        intro h
        rcases List.mem_append.mp h with h | h
        · exact hnotinS h
        · simp at h
      have h := @removeAll_append 'с' ['а', 'я']
        (numeralChars (g :: tail) fs sep ++ [' ']) hmem
      simpa [scaleSuffix, sayaChars] using h
    rw [hrm, pyStrip_append_space hNne hNheadws hNlastws]
    rw [removeCS_numeral hg hf]
    rw [pyFloat_numFinal (join_ne_nil_of_head tail hgne) (digits_join hg) hf]
    simp [scaleConst]
  | terbum =>
    have hnosub : hasSubstr sayaChars
        (numeralChars (g :: tail) fs sep ++ scaleSuffix Scale.terbum) = false := by
      apply hasSubstr_eq_false (show ('с' : Char) ∈ sayaChars from by decide)
      intro h
      rcases List.mem_append.mp h with h | h
      · exact hnotinS h
      · simp [scaleSuffix, terbumChars] at h
    have hsub : hasSubstr terbumChars
        (numeralChars (g :: tail) fs sep ++ scaleSuffix Scale.terbum) = true := by
      have h := hasSubstr_append terbumChars
        (numeralChars (g :: tail) fs sep ++ [' ']) []
      simpa [scaleSuffix] using h
    rw [hnosub, hsub]
    simp only [Bool.false_eq_true, if_false, if_true]
    have hrm : removeAll terbumChars
        (numeralChars (g :: tail) fs sep ++ scaleSuffix Scale.terbum)
        = numeralChars (g :: tail) fs sep ++ [' '] := by
      have hmem : ('т' : Char) ∉ numeralChars (g :: tail) fs sep ++ [' '] := by
        intro h
        rcases List.mem_append.mp h with h | h
        · exact hnotinT h
        · simp at h
      have h := @removeAll_append 'т' ['э', 'р', 'б', 'у', 'м']
        (numeralChars (g :: tail) fs sep ++ [' ']) hmem
      simpa [scaleSuffix, terbumChars] using h
    rw [hrm, pyStrip_append_space hNne hNheadws hNlastws]
    rw [removeCS_numeral hg hf]
    rw [pyFloat_numFinal (join_ne_nil_of_head tail hgne) (digits_join hg) hf]
    simp [scaleConst]

theorem processedVal_digit {f : Feature} {l : Listing} {v : String}
    (h : processedVal f l = some v) : pyIsDigitL v.data = true := by
  unfold processedVal at h
  cases hf : fieldOf f l with
  | none => rw [hf] at h; exact absurd h (by simp)
  | some s =>
    rw [hf] at h
    dsimp only at h
    by_cases he : s.data.isEmpty
    · rw [if_pos he] at h; exact absurd h (by simp)
    · rw [if_neg he] at h
      by_cases hd : pyIsDigitL (if f = Feature.year then (⟨headDot s.data⟩ : String) else s).data
      · rw [if_pos hd] at h
        injection h with h
        rw [← h]
        exact hd
      · rw [if_neg hd] at h; exact absurd h (by simp)

theorem lookup0_bump_same (a : List (String × Nat)) (v : String) :
    lookup0 (bump a v) v = lookup0 a v + 1 := by
  induction a with
  | nil => simp [bump, lookup0]
  | cons q r ih =>
    obtain ⟨k, c⟩ := q
    by_cases hk : k = v
    · subst hk
      simp [bump, lookup0]
    · simp [bump, lookup0, hk, ih]

theorem lookup0_bump_ne {a : List (String × Nat)} {v w : String} (h : w ≠ v) :
    lookup0 (bump a v) w = lookup0 a w := by
  induction a with
  | nil => simp [bump, lookup0, Ne.symm h]
  | cons q r ih =>
    obtain ⟨k, c⟩ := q
    by_cases hk : k = v
    · subst hk
      simp [bump, lookup0, Ne.symm h]
    · simp [bump, lookup0, hk, ih]

theorem lookup0_tally_fold (f : Feature) (v : String) :
    ∀ (ls : List Listing) (acc : List (String × Nat)),
      lookup0 (ls.foldl (fun acc l =>
        match processedVal f l with
        | some w => bump acc w
        | none => acc) acc) v
      = lookup0 acc v + countFeat f v ls := by
  intro ls
  induction ls with
  | nil => intro acc; simp [countFeat]
  | cons l t ih =>
    intro acc
    rw [List.foldl_cons, ih]
    simp only [countFeat, List.countP_cons]
    cases hpv : processedVal f l with
    | none =>
      simp only [hpv]
      rw [if_neg (show ¬decide ((none : Option String) = some v) = true from by simp)]
      omega
    | some w =>
      simp only [hpv]
      by_cases hw : w = v
      · subst hw
        rw [lookup0_bump_same]
        rw [if_pos (show decide (some w = some w) = true from by simp)]
        omega
      · rw [lookup0_bump_ne (Ne.symm hw)]
        rw [if_neg (show ¬decide (some w = some v) = true from by simp [hw])]
        omega

theorem tallyOf_lookup0 (f : Feature) (v : String) (ls : List Listing) :
    lookup0 (tallyOf f ls) v = countFeat f v ls := by
  rw [tallyOf, lookup0_tally_fold]
  simp [lookup0]

theorem bump_keys (a : List (String × Nat)) (v : String) :
    (bump a v).map Prod.fst
      = if v ∈ a.map Prod.fst then a.map Prod.fst else a.map Prod.fst ++ [v] := by
  induction a with
  | nil => simp [bump]
  | cons q r ih =>
    obtain ⟨k, c⟩ := q
    by_cases hk : k = v
    · subst hk
      simp [bump]
    · rw [bump, if_neg hk]
      simp only [List.map_cons, ih]
      by_cases hm : v ∈ r.map Prod.fst
      · rw [if_pos hm, if_pos (List.mem_cons.mpr (Or.inr hm))]
      · rw [if_neg hm, if_neg (by
          intro hc
          rcases List.mem_cons.mp hc with hc | hc
          · exact hk hc.symm
          · exact hm hc)]
        simp

theorem bump_nodup {a : List (String × Nat)} {v : String}
    (h : (a.map Prod.fst).Nodup) : ((bump a v).map Prod.fst).Nodup := by
  rw [bump_keys]
  by_cases hm : v ∈ a.map Prod.fst
  · rw [if_pos hm]; exact h
  · rw [if_neg hm]
    rw [List.nodup_append]
    exact ⟨h, List.nodup_singleton v, by
      intro x hx hmem
      rw [List.mem_singleton] at hmem
      exact hm (hmem ▸ hx)⟩

theorem bump_all {a : List (String × Nat)} {v : String}
    (hv : pyIsDigitL v.data = true)
    (h : ∀ q ∈ a, 1 ≤ q.2 ∧ pyIsDigitL q.1.data = true) :
    ∀ q ∈ bump a v, 1 ≤ q.2 ∧ pyIsDigitL q.1.data = true := by
  induction a with
  | nil =>
    intro q hq
    rw [bump] at hq
    rw [List.mem_singleton] at hq
    subst hq
    exact ⟨Nat.le_refl 1, hv⟩
  | cons p r ih =>
    obtain ⟨k, c⟩ := p
    intro q hq
    by_cases hk : k = v
    · subst hk
      rw [bump, if_pos rfl] at hq
      rcases List.mem_cons.mp hq with hq | hq
      · subst hq
        refine ⟨by omega, (h (k, c) (List.mem_cons_self _ _)).2⟩
      · exact h q (List.mem_cons.mpr (Or.inr hq))
    · rw [bump, if_neg hk] at hq
      rcases List.mem_cons.mp hq with hq | hq
      · subst hq
        exact h (k, c) (List.mem_cons_self _ _)
      · exact ih (fun p hp => h p (List.mem_cons.mpr (Or.inr hp))) q hq

theorem tally_fold_props (f : Feature) :
    ∀ (ls : List Listing) (acc : List (String × Nat)),
      (acc.map Prod.fst).Nodup →
      (∀ q ∈ acc, 1 ≤ q.2 ∧ pyIsDigitL q.1.data = true) →
      ((ls.foldl (fun acc l =>
          match processedVal f l with
          | some w => bump acc w
          | none => acc) acc).map Prod.fst).Nodup ∧
        (∀ q ∈ ls.foldl (fun acc l =>
            match processedVal f l with
            | some w => bump acc w
            | none => acc) acc, 1 ≤ q.2 ∧ pyIsDigitL q.1.data = true) := by
  intro ls
  induction ls with
  | nil => intro acc h1 h2; exact ⟨h1, h2⟩
  | cons l t ih =>
    intro acc h1 h2
    rw [List.foldl_cons]
    cases hpv : processedVal f l with
    | none => simp only [hpv]; exact ih acc h1 h2
    | some w =>
      simp only [hpv]
      exact ih (bump acc w) (bump_nodup h1) (bump_all (processedVal_digit hpv) h2)

theorem tally_props (f : Feature) (ls : List Listing) :
    ((tallyOf f ls).map Prod.fst).Nodup ∧
      (∀ q ∈ tallyOf f ls, 1 ≤ q.2 ∧ pyIsDigitL q.1.data = true) := by
  rw [tallyOf]
  exact tally_fold_props f ls [] (by simp) (by simp)

theorem mem_tally_iff {a : List (String × Nat)}
    (hnd : (a.map Prod.fst).Nodup) (hall : ∀ q ∈ a, 1 ≤ q.2)
    {v : String} {c : Nat} :
    (v, c) ∈ a ↔ (1 ≤ c ∧ lookup0 a v = c) := by
  induction a with
  | nil =>
    simp [lookup0]
    omega
  | cons q r ih =>
    obtain ⟨k, c2⟩ := q
    constructor
    · intro hmem
      rcases List.mem_cons.mp hmem with h | h
      · injection h with h1 h2
        subst h1; subst h2
        exact ⟨hall (v, c) (List.mem_cons_self _ _),
          by rw [lookup0, if_pos rfl]⟩
      · have hkv : k ≠ v := by
          intro hk
          subst hk
          rw [List.map_cons] at hnd
          exact (List.nodup_cons.mp hnd).1
            (List.mem_map.mpr ⟨(k, c), h, rfl⟩)
        have := (ih (List.nodup_cons.mp (List.map_cons Prod.fst (k, c2) r ▸ hnd)).2
          (fun p hp => hall p (List.mem_cons.mpr (Or.inr hp)))).mp h
        exact ⟨this.1, by rw [lookup0, if_neg hkv]; exact this.2⟩
    · intro ⟨hc, hl⟩
      rw [lookup0] at hl
      by_cases hk : k = v
      · rw [if_pos hk] at hl
        subst hk; subst hl
        exact List.mem_cons_self _ _
      · rw [if_neg hk] at hl
        exact List.mem_cons.mpr (Or.inr
          ((ih (List.nodup_cons.mp (List.map_cons Prod.fst (k, c2) r ▸ hnd)).2
            (fun p hp => hall p (List.mem_cons.mpr (Or.inr hp)))).mpr ⟨hc, hl⟩))

theorem digit_no_space {v : List Char} (h : pyIsDigitL v = true) : ' ' ∉ v := by
  intro hmem
  rw [pyIsDigitL, Bool.and_eq_true, List.all_eq_true] at h
  have := h.2 ' ' hmem
  exact absurd this (by decide)

theorem append_space_inj :
    ∀ {a c : List Char} {b d : List Char}, ' ' ∉ a → ' ' ∉ c →
      a ++ ' ' :: b = c ++ ' ' :: d → a = c ∧ b = d := by
  intro a
  induction a with
  | nil =>
    intro c b d _ hc h
    cases c with
    | nil =>
      simp only [List.nil_append] at h
      injection h with _ h2
      exact ⟨rfl, h2⟩
    | cons y ct =>
      simp only [List.nil_append, List.cons_append] at h
      injection h with h1 _
      exact absurd (h1 ▸ List.mem_cons_self y ct) hc
  | cons x at' ih =>
    intro c b d ha hc h
    cases c with
    | nil =>
      simp only [List.cons_append, List.nil_append] at h
      injection h with h1 _
      exact absurd (h1 ▸ List.mem_cons_self x at') ha
    | cons y ct =>
      simp only [List.cons_append] at h
      injection h with h1 h2
      obtain ⟨h3, h4⟩ := ih (fun hm => ha (List.mem_cons.mpr (Or.inr hm)))
        (fun hm => hc (List.mem_cons.mpr (Or.inr hm))) h2
      exact ⟨by rw [h1, h3], h4⟩

theorem display_inj : ∀ f g : Feature, (display f).data = (display g).data → f = g := by
  intro f g h
  cases f <;> cases g <;> first
    | rfl
    | exact absurd h (by decide)

theorem render_inj {f g : Feature} {v w : String}
    (hv : pyIsDigitL v.data = true) (hw : pyIsDigitL w.data = true)
    (h : render f v = render g w) : f = g ∧ v = w := by
  rw [render, render] at h
  have hdata : v.data ++ ' ' :: (display f).data = w.data ++ ' ' :: (display g).data := by
    have := congrArg String.data h
    exact this
  obtain ⟨h1, h2⟩ := append_space_inj (digit_no_space hv) (digit_no_space hw) hdata
  refine ⟨display_inj f g h2, ?_⟩
  cases v with
  | mk vd =>
    cases w with
    | mk wd => rw [show vd = wd from h1]

theorem mem_allFeatures (f : Feature) : f ∈ allFeatures := by
  cases f <;> decide

theorem mem_common_features_iff (ls : List Listing) (f : Feature)
    (v : String) (hne : ls ≠ []) (hv : pyIsDigitL v.data = true) :
    render f v ∈ calculate_common_features ls ↔
      (ls.length : ℚ) * 0.4 ≤ (countFeat f v ls : ℚ) := by
  have hlse : ls.isEmpty = false := by
    cases ls with
    | nil => exact absurd rfl hne
    | cons a b => rfl
  simp only [calculate_common_features, hlse, Bool.false_eq_true, if_false]
  constructor
  · intro hmem
    rw [List.mem_join] at hmem
    obtain ⟨L, hL, hmemL⟩ := hmem
    rw [List.mem_map] at hL
    obtain ⟨f2, _, rfl⟩ := hL
    rw [List.mem_filterMap] at hmemL
    obtain ⟨⟨v2, c2⟩, hvc, heq⟩ := hmemL
    by_cases hth : (ls.length : ℚ) * 0.4 ≤ (c2 : ℚ)
    · rw [if_pos hth] at heq
      injection heq with heq
      have hgood := tally_props f2 ls
      have hv2d : pyIsDigitL v2.data = true := (hgood.2 (v2, c2) hvc).2
      obtain ⟨hfeq, hveq⟩ := render_inj hv2d hv heq
      subst hfeq
      subst hveq
      have hl := (mem_tally_iff hgood.1 (fun q hq => (hgood.2 q hq).1)).mp hvc
      rw [tallyOf_lookup0] at hl
      rw [hl.2]
      exact hth
    · rw [if_neg hth] at heq
      exact absurd heq (by simp)
  · intro hth
    have hn1 : 1 ≤ ls.length := List.length_pos.mpr hne
    have hc1 : 1 ≤ countFeat f v ls := by
      by_contra hcc
      have h0 : countFeat f v ls = 0 := by omega
      rw [h0] at hth
      have h1 : (1 : ℚ) ≤ (ls.length : ℚ) := by exact_mod_cast hn1
      have h2 : (1 : ℚ) * 0.4 ≤ (ls.length : ℚ) * 0.4 :=
        mul_le_mul_of_nonneg_right h1 (by norm_num)
      simp only [Nat.cast_zero] at hth
      linarith
    have hgood := tally_props f ls
    have hmem2 : (v, countFeat f v ls) ∈ tallyOf f ls :=
      (mem_tally_iff hgood.1 (fun q hq => (hgood.2 q hq).1)).mpr
        ⟨hc1, tallyOf_lookup0 f v ls⟩
    rw [List.mem_join]
    refine ⟨(tallyOf f ls).filterMap (fun vc =>
        if (ls.length : ℚ) * 0.4 ≤ (vc.2 : ℚ) then some (render f vc.1) else none),
      List.mem_map.mpr ⟨f, mem_allFeatures f, rfl⟩, ?_⟩
    rw [List.mem_filterMap]
    exact ⟨(v, countFeat f v ls), hmem2, by rw [if_pos hth]⟩

/-- Claim C2: a numeric feature value of one of the five candidate fields
appears in the returned common_features list if and only if its occurrence
count is at least 40 % of the total record count (so a value in exactly
40 % of the records is included and one below the threshold is excluded). -/
theorem calculate_common_features_threshold (ls : List Listing) (f : Feature)
    (v : String) (hne : ls ≠ []) (hv : pyIsDigitL v.data = true) :
    render f v ∈ calculate_common_features ls ↔
      (ls.length : ℚ) * 0.4 ≤ (countFeat f v ls : ℚ) :=
  mem_common_features_iff ls f v hne hv

/-- Witness for C2 at the 40 % boundary: among five records, balcony value
"2" occurring twice (40 %) is reported, occurring once (20 %) is not. -/
theorem calculate_common_features_threshold_witness :
    render Feature.balcony "2" ∈ calculate_common_features fortyExample ∧
      render Feature.balcony "2" ∉ calculate_common_features twentyExample := by
  constructor
  · refine (calculate_common_features_threshold fortyExample Feature.balcony "2"
      (by decide) (by decide)).mpr ?_
    rw [show countFeat Feature.balcony "2" fortyExample = 2 from by decide]
    rw [show fortyExample.length = 5 from by decide]
    norm_num
  · intro hmem
    have h := (calculate_common_features_threshold twentyExample Feature.balcony "2"
      (by decide) (by decide)).mp hmem
    rw [show countFeat Feature.balcony "2" twentyExample = 1 from by decide] at h
    rw [show twentyExample.length = 5 from by decide] at h
    norm_num at h

/-- Claim C5: the price parser is total: `None`, empty and purely alphabetic
inputs yield `none`, and whenever the cleaned remainder handed to `float`
is not a valid decimal literal the result is `none` (the `ValueError` is
caught), never an exception. -/
theorem extract_numeric_price_total :
    extract_numeric_price none = none ∧
    extract_numeric_price (some "") = none ∧
    extract_numeric_price (some "abcdef") = none ∧
    ∀ s : String, pyFloat (cleanedValue s) = none →
      extract_numeric_price (some s) = none := by
  refine ⟨rfl, by decide, by decide, ?_⟩
  intro s h
  simp only [cleanedValue] at h
  simp only [extract_numeric_price, extract_price_chars]
  by_cases he : s.data.isEmpty
  · rw [if_pos he]
  · rw [if_neg he]
    by_cases h1 : hasSubstr sayaChars (pyStrip (s.data.filter (fun c => !(c = '₮'))))
    · rw [if_pos h1] at h ⊢
      rw [h]
      rfl
    · rw [if_neg h1] at h ⊢
      by_cases h2 : hasSubstr terbumChars (pyStrip (s.data.filter (fun c => !(c = '₮'))))
      · rw [if_pos h2] at h ⊢
        rw [h]
        rfl
      · rw [if_neg h2] at h ⊢
        exact h

/-- Witness for C5: on "12abc" the cleaned remainder is not a valid decimal
literal and the parser returns `none`. -/
theorem extract_numeric_price_total_witness :
    pyFloat (cleanedValue "12abc") = none ∧
      extract_numeric_price (some "12abc") = none := by
  have h : pyFloat (cleanedValue "12abc") = none := by decide
  exact ⟨h, extract_numeric_price_total.2.2.2 "12abc" h⟩

/-- Claim C9: the `GroupSummary` fields of `analyze_group` — group_name,
count, average_price, price_range, common_features — are a pure function of
the group name and record list: two calls on the same unmodified input
agree on all of them regardless of the external LLM outcome. -/
theorem analyze_group_llm_independent (llm1 llm2 : String × List String)
    (name : String) (ls : List Listing) :
    (analyze_group llm1 name ls).group_name = (analyze_group llm2 name ls).group_name ∧
    (analyze_group llm1 name ls).count = (analyze_group llm2 name ls).count ∧
    (analyze_group llm1 name ls).average_price
      = (analyze_group llm2 name ls).average_price ∧
    (analyze_group llm1 name ls).price_range = (analyze_group llm2 name ls).price_range ∧
    (analyze_group llm1 name ls).common_features
      = (analyze_group llm2 name ls).common_features :=
  ⟨rfl, rfl, rfl, rfl, rfl⟩

/-- Counterexample for C6: "6 өрөө" contains a digit ≥ 5 followed by the
room token, so the claim's rule buckets it under "5+ rooms", but the code
only tests the literal tokens "5 өрөө" / "5-р өрөө" and excludes it. -/
theorem extract_room_count_counterexample :
    claimRoomCount "6 өрөө" = some "5+ rooms" ∧
      extract_room_count "6 өрөө" = none ∧
      extract_room_count "6 өрөө" ≠ claimRoomCount "6 өрөө" := by
  refine ⟨by decide, by decide, by decide⟩

/-- Claim C6 (amended): the room-count rule buckets under the lowest
matching N in {1,2,3,4}; otherwise the catch-all fires exactly on the
literal tokens "5 өрөө" / "5-р өрөө" (digits 6-9 do not match); otherwise
the record is excluded from this dimension. -/
theorem extract_room_count_eq_amended (text : String) :
    extract_room_count text = amendedRoomCount text := by
  simp only [extract_room_count, amendedRoomCount, roomTable, List.find?]
  cases h1 : hasSubstr ("1 өрөө").data (pyLower text.data)
    || hasSubstr ("1-р өрөө").data (pyLower text.data) <;>
  cases h2 : hasSubstr ("2 өрөө").data (pyLower text.data)
    || hasSubstr ("2-р өрөө").data (pyLower text.data) <;>
  cases h3 : hasSubstr ("3 өрөө").data (pyLower text.data)
    || hasSubstr ("3-р өрөө").data (pyLower text.data) <;>
  cases h4 : hasSubstr ("4 өрөө").data (pyLower text.data)
    || hasSubstr ("4-р өрөө").data (pyLower text.data) <;>
  simp [h1, h2, h3, h4]

/-- Claim C7: `group_properties` raises an uncaught `TypeError` on records
whose place (`"district" in None`) or title/details (`None + " "`) field is
`None`, instead of leaving the record out of the affected dimension; the
scraper initialises exactly such records. -/
theorem group_properties_raises_on_missing_fields :
    group_properties [blankListing] = Except.error PyErr.typeError ∧
      group_properties [hanUulListing] = Except.error PyErr.typeError := by
  refine ⟨rfl, rfl⟩

/-- Claim C1 (amended): the grouper's price bucket is the four-band banding
of the grouper's own parse (`grouperParsePrice`: first `[\d.]+` run times
1,000,000 when "сая" occurs, else the concatenated digits), and a record is
excluded exactly when that own parse fails — not the banding of the
summarizer's `_extract_numeric_price`. -/
theorem get_price_range_eq_own_parse (o : Option String) :
    get_price_range o = (grouperParsePrice o).map bandOf := by
  cases o with
  | none => rfl
  | some s =>
    simp only [get_price_range, grouperParsePrice]
    by_cases h1 : hasSubstr sayaChars s.data
    · rw [if_pos h1, if_pos h1]
      cases hr : firstRun s.data with
      | none => rfl
      | some run =>
        cases hp : pyFloat run with
        | none => simp [hp]
        | some v => simp [hp]
    · rw [if_neg h1, if_neg h1]
      cases hp : pyFloat (s.data.filter isAsciiDigit) with
      | none => simp [hp]
      | some v => simp [hp]

/-- Counterexample for C1: on "abc1" the summarizer's parse fails (so the
claim demands exclusion), but the grouper's own digit-concatenation parse
yields 1 and buckets the record in the lowest band. -/
theorem get_price_range_counterexample :
    extract_numeric_price (some "abc1") = none ∧
      get_price_range (some "abc1") = some "100 Саяас бага үнэтэй" ∧
      get_price_range (some "abc1")
        ≠ Option.map bandOf (extract_numeric_price (some "abc1")) := by
  have h1 : extract_numeric_price (some "abc1") = none := by decide
  have h2 : get_price_range (some "abc1") = some "100 Саяас бага үнэтэй" := by
    simp only [get_price_range]
    simp only [show hasSubstr sayaChars ("abc1" : String).data = false from by decide,
      Bool.false_eq_true, if_false]
    rw [show ("abc1" : String).data.filter isAsciiDigit = ['1'] from by decide]
    rw [pyFloat_digits (by decide) (by decide)]
    rw [show natOfDigits ['1'] = 1 from by decide]
    simp only [bandOf]
    rw [if_pos (show ((1 : Nat) : ℚ) < 100000000 from by norm_num)]
  refine ⟨h1, h2, ?_⟩
  rw [h1, h2]
  simp

/-- Claim C10 (amended): a record whose candidate field is missing (`None`),
empty, or not a plain non-negative integer string after the year suffix
split contributes nothing to any occurrence tally, and each tally entry is
exactly the number of records with that processed value; however the
string "0" is truthy and passes `isdigit`, so the value 0 CAN appear in
common_features when records carry it as a string (see the counterexample). -/
theorem common_features_counting_guards :
    (∀ (f : Feature) (l : Listing), fieldOf f l = none → processedVal f l = none) ∧
    (∀ (f : Feature) (l : Listing), fieldOf f l = some "" → processedVal f l = none) ∧
    (∀ (f : Feature) (l : Listing) (s : String), fieldOf f l = some s →
        pyIsDigitL (if f = Feature.year then headDot s.data else s.data) = false →
        processedVal f l = none) ∧
    (∀ (f : Feature) (v : String) (ls : List Listing),
        lookup0 (tallyOf f ls) v = countFeat f v ls) := by
  refine ⟨?_, ?_, ?_, fun f v ls => tallyOf_lookup0 f v ls⟩
  · intro f l h
    simp [processedVal, h]
  · intro f l h
    simp [processedVal, h]
  · intro f l s h hd
    simp only [processedVal, h]
    by_cases he : s.data.isEmpty
    · rw [if_pos he]
    · rw [if_neg he]
      have hdata : (if f = Feature.year then (⟨headDot s.data⟩ : String) else s).data
          = (if f = Feature.year then headDot s.data else s.data) := by
        by_cases hy : f = Feature.year
        · rw [if_pos hy, if_pos hy]
        · rw [if_neg hy, if_neg hy]
      rw [hdata, hd]
      simp

/-- Counterexample for C10: a record whose balcony field holds the string
"0" is truthy and digit-valued, so "0 тагттай" appears in common_features,
contradicting "the value 0 can never appear". -/
theorem common_features_zero_counterexample :
    ("0 тагттай" : String) ∈ calculate_common_features [zeroBalcony] := by
  have hr : render Feature.balcony "0" = "0 тагттай" := by decide
  rw [← hr]
  refine (mem_common_features_iff [zeroBalcony] Feature.balcony "0"
    (by decide) (by decide)).mpr ?_
  rw [show countFeat Feature.balcony "0" [zeroBalcony] = 1 from by decide]
  rw [show ([zeroBalcony] : List Listing).length = 1 from by decide]
  norm_num

/-- Witness for C10: the guards at concrete records — a negative value, a
missing field and an empty field are never counted — and the tally-count
identity at a concrete tally. -/
theorem common_features_counting_guards_witness :
    processedVal Feature.balcony negBalcony = none ∧
    processedVal Feature.floor blankListing = none ∧
    processedVal Feature.balcony { balcony := some "" } = none ∧
    lookup0 (tallyOf Feature.balcony fortyExample) "2"
      = countFeat Feature.balcony "2" fortyExample := by
  refine ⟨?_, ?_, ?_,
    common_features_counting_guards.2.2.2 Feature.balcony "2" fortyExample⟩
  · exact common_features_counting_guards.2.2.1 Feature.balcony negBalcony "-5"
      rfl (by decide)
  · exact common_features_counting_guards.1 Feature.floor blankListing rfl
  · exact common_features_counting_guards.2.1 Feature.balcony { balcony := some "" } rfl

theorem extract_none_of_falsy {o : Option String} (h : truthyOpt o = false) :
    extract_numeric_price o = none := by
  cases o with
  | none => rfl
  | some s =>
    rw [truthyOpt] at h
    simp only [Bool.not_eq_eq_eq_not, Bool.not_false] at h
    simp [extract_numeric_price, extract_price_chars, h]

theorem internalPrices_eq_spec (ls : List Listing) :
    internalPrices ls = specValidPrices ls := by
  induction ls with
  | nil => rfl
  | cons l t ih =>
    by_cases ht : truthyOpt l.price
    · cases he : extract_numeric_price l.price with
      | none =>
        simp only [internalPrices, specValidPrices, List.filter_cons, ht, if_pos,
          List.map_cons, List.filterMap_cons, he] at ih ⊢
        exact ih
      | some v =>
        by_cases hv : 0 < v
        · simp only [internalPrices, specValidPrices, List.filter_cons, ht, if_pos,
            List.map_cons, List.filterMap_cons, he, List.filter_cons,
            decide_eq_true_eq, hv, if_true] at ih ⊢
          rw [ih]
        · simp only [internalPrices, specValidPrices, List.filter_cons, ht, if_pos,
            List.map_cons, List.filterMap_cons, he, List.filter_cons,
            decide_eq_true_eq, hv, if_false] at ih ⊢
          exact ih
    · have hnone : extract_numeric_price l.price = none := extract_none_of_falsy
        (by rw [Bool.eq_false_iff]; exact ht)
      simp only [internalPrices, specValidPrices, List.filter_cons, ht,
        List.filterMap_cons, hnone] at ih ⊢
      exact ih

theorem foldl_min_mem : ∀ (xs : List ℚ) (x : ℚ), xs.foldl min x ∈ x :: xs := by
  intro xs
  induction xs with
  | nil => intro x; exact List.mem_singleton.mpr rfl
  | cons y ys ih =>
    intro x
    rw [List.foldl_cons]
    rcases List.mem_cons.mp (ih (min x y)) with h | h
    · rcases min_choice x y with hm | hm
      · exact List.mem_cons.mpr (Or.inl (h.trans hm))
      · exact List.mem_cons.mpr (Or.inr (List.mem_cons.mpr (Or.inl (h.trans hm))))
    · exact List.mem_cons.mpr (Or.inr (List.mem_cons.mpr (Or.inr h)))

theorem foldl_min_le : ∀ (xs : List ℚ) (x : ℚ), ∀ p ∈ x :: xs, xs.foldl min x ≤ p := by
  intro xs
  induction xs with
  | nil =>
    intro x p hp
    rw [List.mem_singleton.mp hp]
    exact le_refl x
  | cons y ys ih =>
    intro x p hp
    rw [List.foldl_cons]
    rcases List.mem_cons.mp hp with h | h
    · rw [h]
      exact (ih (min x y) (min x y) (List.mem_cons_self _ _)).trans (min_le_left x y)
    · rcases List.mem_cons.mp h with h | h
      · rw [h]
        exact (ih (min x y) (min x y) (List.mem_cons_self _ _)).trans (min_le_right x y)
      · exact ih (min x y) p (List.mem_cons.mpr (Or.inr h))

theorem foldl_max_mem : ∀ (xs : List ℚ) (x : ℚ), xs.foldl max x ∈ x :: xs := by
  intro xs
  induction xs with
  | nil => intro x; exact List.mem_singleton.mpr rfl
  | cons y ys ih =>
    intro x
    rw [List.foldl_cons]
    rcases List.mem_cons.mp (ih (max x y)) with h | h
    · rcases max_choice x y with hm | hm
      · exact List.mem_cons.mpr (Or.inl (h.trans hm))
      · exact List.mem_cons.mpr (Or.inr (List.mem_cons.mpr (Or.inl (h.trans hm))))
    · exact List.mem_cons.mpr (Or.inr (List.mem_cons.mpr (Or.inr h)))

theorem foldl_max_le : ∀ (xs : List ℚ) (x : ℚ), ∀ p ∈ x :: xs, p ≤ xs.foldl max x := by
  intro xs
  induction xs with
  | nil =>
    intro x p hp
    rw [List.mem_singleton.mp hp]
    exact le_refl x
  | cons y ys ih =>
    intro x p hp
    rw [List.foldl_cons]
    rcases List.mem_cons.mp hp with h | h
    · rw [h]
      exact (le_max_left x y).trans (ih (max x y) (max x y) (List.mem_cons_self _ _))
    · rcases List.mem_cons.mp h with h | h
      · rw [h]
        exact (le_max_right x y).trans (ih (max x y) (max x y) (List.mem_cons_self _ _))
      · exact ih (max x y) p (List.mem_cons.mpr (Or.inr h))

theorem listMin_mem {l : List ℚ} (h : l ≠ []) : listMin l ∈ l := by
  cases l with
  | nil => exact absurd rfl h
  | cons x xs => exact foldl_min_mem xs x

theorem listMin_le {l : List ℚ} (h : l ≠ []) : ∀ p ∈ l, listMin l ≤ p := by
  cases l with
  | nil => exact absurd rfl h
  | cons x xs => exact foldl_min_le xs x

theorem listMax_mem {l : List ℚ} (h : l ≠ []) : listMax l ∈ l := by
  cases l with
  | nil => exact absurd rfl h
  | cons x xs => exact foldl_max_mem xs x

theorem listMax_le {l : List ℚ} (h : l ≠ []) : ∀ p ∈ l, p ≤ listMax l := by
  cases l with
  | nil => exact absurd rfl h
  | cons x xs => exact foldl_max_le xs x

/-- Claim C3: `analyze_group` counts every record including unparseable
prices; its average times the number of valid prices equals their sum (so
the average is the mean of the parsed positive prices); with zero valid
prices average and range are 0; and with at least one valid price the range
endpoints are the minimum and maximum of the valid prices. -/
theorem analyze_group_stats (llm : String × List String) (g : String)
    (ls : List Listing) :
    (analyze_group llm g ls).count = ls.length ∧
    (analyze_group llm g ls).average_price * ((specValidPrices ls).length : ℚ)
      = listSum (specValidPrices ls) ∧
    (specValidPrices ls = [] →
      (analyze_group llm g ls).average_price = 0 ∧
      (analyze_group llm g ls).price_range = (0, 0)) ∧
    (specValidPrices ls ≠ [] →
      (analyze_group llm g ls).price_range.1 ∈ specValidPrices ls ∧
      (analyze_group llm g ls).price_range.2 ∈ specValidPrices ls ∧
      ∀ p ∈ specValidPrices ls,
        (analyze_group llm g ls).price_range.1 ≤ p
          ∧ p ≤ (analyze_group llm g ls).price_range.2) := by
  have havg : (analyze_group llm g ls).average_price
      = if (internalPrices ls).isEmpty then 0
        else listSum (internalPrices ls) / ((internalPrices ls).length : ℚ) := rfl
  have hpr : (analyze_group llm g ls).price_range
      = (if (internalPrices ls).isEmpty then 0 else listMin (internalPrices ls),
         if (internalPrices ls).isEmpty then 0 else listMax (internalPrices ls)) := rfl
  rw [internalPrices_eq_spec] at havg hpr
  refine ⟨rfl, ?_, ?_, ?_⟩
  · by_cases he : specValidPrices ls = []
    · rw [havg, if_pos (by rw [he]; rfl), he]
      simp [listSum]
    · have hee : (specValidPrices ls).isEmpty = false := by
        cases h : specValidPrices ls with
        | nil => exact absurd h he
        | cons a b => rfl
      simp only [havg, hee, Bool.false_eq_true, if_false]
      have hlen : ((specValidPrices ls).length : ℚ) ≠ 0 := by
        have := List.length_pos.mpr he
        exact_mod_cast Nat.pos_iff_ne_zero.mp this
      exact div_mul_cancel₀ _ hlen
  · intro he
    refine ⟨by rw [havg, if_pos (by rw [he]; rfl)], ?_⟩
    simp only [hpr, he, List.isEmpty_nil, if_true]
  · intro he
    have hee : (specValidPrices ls).isEmpty = false := by
      cases h : specValidPrices ls with
      | nil => exact absurd h he
      | cons a b => rfl
    simp only [hpr, hee, Bool.false_eq_true, if_false]
    exact ⟨listMin_mem he, listMax_mem he,
      fun p hp => ⟨listMin_le he p hp, listMax_le he p hp⟩⟩

theorem extract_eval_100 :
    extract_numeric_price (some "100 сая ₮") = some 100000000 := by
  show extract_price_chars ("100 сая ₮").data = some 100000000
  have h0 : ("100 сая ₮").data.isEmpty = false := by decide
  have h1 : ("100 сая ₮").data.filter (fun c => !(c = '₮')) = ("100 сая ").data := by
    decide
  have h2 : pyStrip (("100 сая ").data) = ("100 сая").data := by decide
  have h3 : hasSubstr sayaChars (("100 сая").data) = true := by decide
  have h4 : removeAll sayaChars (("100 сая").data) = ("100 ").data := by decide
  have h5 : pyStrip (("100 ").data) = ("100").data := by decide
  have h6 : removeCS (("100").data) = ['1', '0', '0'] := by decide
  simp only [extract_price_chars, h0, h1, h2, h3, h4, h5, h6,
    Bool.false_eq_true, if_false, if_true]
  rw [pyFloat_digits (by decide) (by decide)]
  rw [show natOfDigits ['1', '0', '0'] = 100 from by decide]
  rw [Option.map_some']
  rw [Option.some.injEq]
  norm_num

theorem extract_eval_200 :
    extract_numeric_price (some "200 сая ₮") = some 200000000 := by
  show extract_price_chars ("200 сая ₮").data = some 200000000
  have h0 : ("200 сая ₮").data.isEmpty = false := by decide
  have h1 : ("200 сая ₮").data.filter (fun c => !(c = '₮')) = ("200 сая ").data := by
    decide
  have h2 : pyStrip (("200 сая ").data) = ("200 сая").data := by decide
  have h3 : hasSubstr sayaChars (("200 сая").data) = true := by decide
  have h4 : removeAll sayaChars (("200 сая").data) = ("200 ").data := by decide
  have h5 : pyStrip (("200 ").data) = ("200").data := by decide
  have h6 : removeCS (("200").data) = ['2', '0', '0'] := by decide
  simp only [extract_price_chars, h0, h1, h2, h3, h4, h5, h6,
    Bool.false_eq_true, if_false, if_true]
  rw [pyFloat_digits (by decide) (by decide)]
  rw [show natOfDigits ['2', '0', '0'] = 200 from by decide]
  rw [Option.map_some']
  rw [Option.some.injEq]
  norm_num

theorem specValid_priceExample :
    specValidPrices priceExample = [100000000, 200000000] := by
  have hbad : extract_numeric_price (some "bad") = none := by decide
  simp only [specValidPrices, priceExample, List.filterMap_cons, List.filterMap_nil,
    extract_eval_100, extract_eval_200, hbad]
  simp only [List.filter_cons, List.filter_nil, decide_eq_true_eq]
  rw [if_pos (by norm_num), if_pos (by norm_num)]

theorem specValid_noPriceExample : specValidPrices noPriceExample = [] := by
  have hjunk : extract_numeric_price (some "junk") = none := by decide
  simp only [specValidPrices, noPriceExample, List.filterMap_cons, List.filterMap_nil,
    hjunk]
  rfl

/-- Witness for C3: on prices ["100 сая ₮", "200 сая ₮", "bad"] the summary
has count 3, average 150,000,000 and range (100,000,000, 200,000,000); on a
list with no valid price the statistics are 0. -/
theorem analyze_group_stats_witness :
    (analyze_group ("", []) "g" priceExample).count = 3 ∧
    (analyze_group ("", []) "g" priceExample).average_price = 150000000 ∧
    (analyze_group ("", []) "g" priceExample).price_range = (100000000, 200000000) ∧
    (analyze_group ("", []) "g" noPriceExample).average_price = 0 ∧
    (analyze_group ("", []) "g" noPriceExample).price_range = (0, 0) := by
  obtain ⟨hc, hm, _, hr⟩ := analyze_group_stats ("", []) "g" priceExample
  obtain ⟨_, _, hz2, _⟩ := analyze_group_stats ("", []) "g" noPriceExample
  refine ⟨hc.trans (by decide), ?_, ?_, (hz2 specValid_noPriceExample).1,
    (hz2 specValid_noPriceExample).2⟩
  · rw [specValid_priceExample] at hm
    have hsum : listSum [(100000000 : ℚ), 200000000] = 300000000 := by
      simp only [listSum, List.foldl_cons, List.foldl_nil]
      norm_num
    rw [hsum] at hm
    norm_num at hm
    linarith
  · obtain ⟨h1, h2, h3⟩ := hr (by rw [specValid_priceExample]; simp)
    rw [specValid_priceExample] at h1 h2 h3
    have hb1 := (h3 100000000 (by simp)).1
    have hb2 := (h3 200000000 (by simp)).2
    have hmin : (analyze_group ("", []) "g" priceExample).price_range.1 = 100000000 := by
      rcases List.mem_cons.mp h1 with e | e
      · exact e
      · rw [List.mem_singleton.mp e] at hb1 ⊢
        norm_num at hb1
    have hmax : (analyze_group ("", []) "g" priceExample).price_range.2 = 200000000 := by
      rcases List.mem_cons.mp h2 with e | e
      · rw [e] at hb2
        norm_num at hb2
      · exact List.mem_singleton.mp e
    exact Prod.ext_iff.mpr ⟨hmin, hmax⟩

/-- Claim C4: for every numeric value (given as digit groups and fraction
digits) and every formatting variant — comma or space thousands separators,
optional currency glyph, either scale word or none — the price parser
returns exactly the denoted value times the scale constant. -/
theorem extract_numeric_price_roundtrip (gs : List (List Char)) (fs : List Char)
    (sep : SepKind) (gl : Bool) (sc : Scale)
    (hne : gs ≠ [])
    (hg0 : ∀ g ∈ gs, g ≠ [])
    (hg : ∀ g ∈ gs, ∀ d ∈ g, isAsciiDigit d = true)
    (hf : ∀ d ∈ fs, isAsciiDigit d = true) :
    extract_numeric_price (some (mkPriceString gs fs sep gl sc)) =
      some (ratOfParts gs.join fs * scaleConst sc) :=
  extract_price_chars_mk gs fs sep gl sc hne hg0 hg hf

/-- Witness for C4: the variant "1,500 сая₮" parses to 1,500,000,000. -/
theorem extract_numeric_price_roundtrip_witness :
    extract_numeric_price (some (mkPriceString [['1'], ['5', '0', '0']] []
        SepKind.comma true Scale.saya)) = some 1500000000 := by
  have h := extract_numeric_price_roundtrip [['1'], ['5', '0', '0']] []
    SepKind.comma true Scale.saya (by decide) (by decide) (by decide) (by decide)
  rw [h]
  rw [show ([['1'], ['5', '0', '0']] : List (List Char)).join
    = ['1', '5', '0', '0'] from by decide]
  rw [show ratOfParts ['1', '5', '0', '0'] []
    = ((natOfDigits ['1', '5', '0', '0'] : ℚ)) from by
      simp [ratOfParts, natOfDigits]]
  rw [show natOfDigits ['1', '5', '0', '0'] = 1500 from by decide]
  rw [show scaleConst Scale.saya = 1000000 from rfl]
  norm_num

/-- Claim C8: `analyze_overall_category` returns the same count,
average_price, price_range and common_features as `analyze_group` applied
to the concatenation of all buckets in bucket-iteration order; in the
10-record 6/4 district example the category summary has count 10 and its
common features are exactly the values meeting the 4-occurrence threshold
(balcony "1" with 4 occurrences is in, floor "3" with 3 is not). -/
theorem analyze_overall_category_eq_flatten :
    (∀ (llm1 llm2 : String × List String) (cat nm : String)
        (sg : List (String × List Listing)),
      (analyze_overall_category llm1 cat sg).count
          = (analyze_group llm2 nm (flattenBuckets sg)).count ∧
      (analyze_overall_category llm1 cat sg).average_price
          = (analyze_group llm2 nm (flattenBuckets sg)).average_price ∧
      (analyze_overall_category llm1 cat sg).price_range
          = (analyze_group llm2 nm (flattenBuckets sg)).price_range ∧
      (analyze_overall_category llm1 cat sg).common_features
          = (analyze_group llm2 nm (flattenBuckets sg)).common_features) ∧
    (analyze_overall_category ("", []) "by_district" districtBuckets).count = 10 ∧
    render Feature.balcony "1"
      ∈ (analyze_overall_category ("", []) "by_district" districtBuckets).common_features ∧
    render Feature.floor "3"
      ∉ (analyze_overall_category ("", []) "by_district" districtBuckets).common_features := by
  refine ⟨fun llm1 llm2 cat nm sg => ⟨rfl, rfl, rfl, rfl⟩, by decide, ?_, ?_⟩
  · show render Feature.balcony "1"
      ∈ calculate_common_features (flattenBuckets districtBuckets)
    refine (mem_common_features_iff (flattenBuckets districtBuckets) Feature.balcony "1"
      (by decide) (by decide)).mpr ?_
    rw [show countFeat Feature.balcony "1" (flattenBuckets districtBuckets) = 4
      from by decide]
    rw [show (flattenBuckets districtBuckets).length = 10 from by decide]
    norm_num
  · intro hmem
    have h := (mem_common_features_iff (flattenBuckets districtBuckets) Feature.floor "3"
      (by decide) (by decide)).mp hmem
    rw [show countFeat Feature.floor "3" (flattenBuckets districtBuckets) = 3
      from by decide] at h
    rw [show (flattenBuckets districtBuckets).length = 10 from by decide] at h
    norm_num at h
